import Mathlib

/-!
Verification of the js-multiaddr address library.

The wrapper type (`src/src/index.js`) is embedded directly from the source.
The codec, protocol registry and value converters it requires
(`./codec`, `./protocols`, the converter module) are not part of the
visible sources, so they are modelled from the specification: strings are
`List Char`, byte buffers are `List Nat` (each byte below 256), and every
fallible operation returns `Option` or `Except`.
-/

namespace Maddr

/-- Error kinds of the library (spec section 7). -/
inductive MError where
  | unknownProtocol
  | invalidFormat
  | invalidValue
  | invalidAddress
  | notContained
  | badArg
  deriving DecidableEq, Repr

instance {e a : Type} [DecidableEq e] [DecidableEq a] : DecidableEq (Except e a) := by
  intro x y
  cases x <;> cases y <;> first
    | (apply isFalse; intro hcon; exact Except.noConfusion hcon)
    | (rename_i u v
       by_cases huv : u = v
       · exact isTrue (by rw [huv])
       · apply isFalse
         intro hcon
         injection hcon
         exact huv (by assumption))

/-! ### Decimal / hexadecimal digit rendering and parsing

Modelled from the spec: the converter module is not in `src/`; the spec
fixes decimal rendering for ports and IPv4 octets and colon-hex for IPv6. -/

/-- The character for a digit value below 16 (decimal digits then lowercase hex). -/
def digitChar (d : Nat) : Char :=
  if d < 10 then Char.ofNat (48 + d) else Char.ofNat (87 + d)

/-- Inverse digit lookup: decimal digits and lowercase hex letters. -/
def charToDigit (c : Char) : Option Nat :=
  if 48 ≤ c.toNat ∧ c.toNat ≤ 57 then some (c.toNat - 48)
  else if 97 ≤ c.toNat ∧ c.toNat ≤ 102 then some (c.toNat - 87)
  else none

/-- Fuel-indexed digit rendering loop (structural recursion so that the
kernel can evaluate it). -/
def natToBaseGo (base : Nat) : Nat → Nat → List Char
  | 0, n => [digitChar n]
  | fuel + 1, n =>
    if n < base ∨ base ≤ 1 then [digitChar n]
    else natToBaseGo base fuel (n / base) ++ [digitChar (n % base)]

/-- Render a natural number in the given base, most significant digit first. -/
def natToBase (base n : Nat) : List Char :=
  natToBaseGo base n n

theorem natToBaseGo_fuel (base : Nat) : ∀ n fuel, n ≤ fuel →
    natToBaseGo base fuel n = natToBase base n := by
  intro n
  induction n using Nat.strong_induction_on with
  | _ n ih =>
    intro fuel hn
    cases n with
    | zero =>
      cases fuel with
      | zero => rfl
      | succ f =>
        rw [natToBase]
        show (if 0 < base ∨ base ≤ 1 then _ else _) = _
        rw [if_pos (by omega)]
        rfl
    | succ m =>
      cases fuel with
      | zero => omega
      | succ f =>
        rw [natToBase, natToBaseGo, natToBaseGo]
        by_cases h : m + 1 < base ∨ base ≤ 1
        · rw [if_pos h, if_pos h]
        · rw [if_neg h, if_neg h]
          have hdiv : (m + 1) / base < m + 1 := Nat.div_lt_self (by omega) (by omega)
          rw [ih ((m + 1) / base) hdiv f (by omega),
            ih ((m + 1) / base) hdiv m (by omega)]

/-- The defining recurrence of `natToBase`. -/
theorem natToBase_unfold (base n : Nat) :
    natToBase base n = if n < base ∨ base ≤ 1 then [digitChar n]
      else natToBase base (n / base) ++ [digitChar (n % base)] := by
  cases n with
  | zero =>
    rw [if_pos (by omega)]
    rfl
  | succ m =>
    rw [natToBase, natToBaseGo]
    by_cases h : m + 1 < base ∨ base ≤ 1
    · rw [if_pos h, if_pos h]
    · rw [if_neg h, if_neg h]
      have hdiv : (m + 1) / base < m + 1 := Nat.div_lt_self (by omega) (by omega)
      rw [natToBaseGo_fuel base ((m + 1) / base) m (by omega)]

/-- Accumulator loop of digit-string parsing. -/
def parseDigitsAux (base : Nat) (acc : Nat) : List Char → Option Nat
  | [] => some acc
  | c :: rest =>
    match charToDigit c with
    | some d => if d < base then parseDigitsAux base (acc * base + d) rest else none
    | none => none

/-- Parse a non-empty all-digit string in the given base. -/
def parseDigits (base : Nat) (s : List Char) : Option Nat :=
  match s with
  | [] => none
  | _ :: _ => parseDigitsAux base 0 s

theorem charToDigit_digitChar {d : Nat} (h : d < 16) : charToDigit (digitChar d) = some d := by
  interval_cases d <;> decide

theorem digitChar_ne {d : Nat} (h : d < 16) :
    digitChar d ≠ '/' ∧ digitChar d ≠ '.' ∧ digitChar d ≠ ':' := by
  interval_cases d <;> decide

theorem natToBase_ne_nil (base n : Nat) : natToBase base n ≠ [] := by
  rw [natToBase_unfold]
  split
  · simp
  · simp

theorem parseDigitsAux_append (base acc : Nat) (xs ys : List Char) :
    parseDigitsAux base acc (xs ++ ys) =
      (parseDigitsAux base acc xs).bind (fun a => parseDigitsAux base a ys) := by
  induction xs generalizing acc with
  | nil => simp [parseDigitsAux]
  | cons c rest ih =>
    simp only [List.cons_append, parseDigitsAux]
    cases charToDigit c with
    | none => simp
    | some d =>
      by_cases hd : d < base
      · simp [hd, ih]
      · simp [hd]

theorem parseDigitsAux_natToBase (base n : Nat) (hb : 2 ≤ base) (hb16 : base ≤ 16) :
    ∀ acc, parseDigitsAux base acc (natToBase base n) =
      some (acc * base ^ (natToBase base n).length + n) := by
  induction n using Nat.strong_induction_on with
  | _ n ih =>
    intro acc
    rw [natToBase_unfold]
    by_cases h : n < base ∨ base ≤ 1
    · have hn : n < base := by omega
      simp only [if_pos h, parseDigitsAux, charToDigit_digitChar (by omega : n < 16)]
      simp [hn, parseDigitsAux]
    · have hn : base ≤ n := by omega
      simp only [if_neg h]
      rw [parseDigitsAux_append]
      have hlt : n / base < n := Nat.div_lt_self (by omega) (by omega)
      rw [ih (n / base) hlt acc]
      have hmod : n % base < base := Nat.mod_lt _ (by omega)
      simp only [Option.bind_some, Option.some_bind, parseDigitsAux,
        charToDigit_digitChar (by omega : n % base < 16)]
      simp only [hmod, if_pos, parseDigitsAux, List.length_append, List.length_cons,
        List.length_nil]
      congr 1
      have hdm : base * (n / base) + n % base = n := Nat.div_add_mod n base
      calc (acc * base ^ (natToBase base (n / base)).length + n / base) * base + n % base
          = acc * (base ^ (natToBase base (n / base)).length * base)
            + (base * (n / base) + n % base) := by ring
        _ = acc * base ^ ((natToBase base (n / base)).length + 1) + n := by
            rw [hdm, pow_succ]

theorem parseDigits_natToBase (base n : Nat) (hb : 2 ≤ base) (hb16 : base ≤ 16) :
    parseDigits base (natToBase base n) = some n := by
  have haux := parseDigitsAux_natToBase base n hb hb16 0
  rw [parseDigits.eq_def]
  cases hh : natToBase base n with
  | nil => exact absurd hh (natToBase_ne_nil base n)
  | cons c rest =>
    show parseDigitsAux base 0 (c :: rest) = some n
    rw [← hh, haux]
    simp

theorem mem_natToBase (base n : Nat) (hb : 2 ≤ base) {c : Char} (hc : c ∈ natToBase base n) :
    ∃ d, d < base ∧ c = digitChar d := by
  induction n using Nat.strong_induction_on with
  | _ n ih =>
    rw [natToBase_unfold] at hc
    by_cases h : n < base ∨ base ≤ 1
    · rw [if_pos h] at hc
      simp only [List.mem_singleton] at hc
      exact ⟨n, by omega, hc⟩
    · rw [if_neg h] at hc
      rcases List.mem_append.mp hc with h1 | h2
      · exact ih (n / base) (Nat.div_lt_self (by omega) (by omega)) h1
      · simp only [List.mem_singleton] at h2
        exact ⟨n % base, Nat.mod_lt _ (by omega), h2⟩

theorem mem_natToBase_ne_slash (base n : Nat) (hb : 2 ≤ base) (hb16 : base ≤ 16)
    {c : Char} (hc : c ∈ natToBase base n) : c ≠ '/' := by
  obtain ⟨d, hd, rfl⟩ := mem_natToBase base n hb hc
  exact (digitChar_ne (by omega)).1

/-! ### Splitting and joining character lists on a separator -/

/-- Split a character list at every occurrence of the separator
(the JS `String.prototype.split` with a one-character separator). -/
def splitChar (sep : Char) : List Char → List (List Char)
  | [] => [[]]
  | c :: rest =>
    if c = sep then [] :: splitChar sep rest
    else
      match splitChar sep rest with
      | [] => [[c]]
      | h :: t => (c :: h) :: t

/-- Join parts with a separator between consecutive parts. -/
def joinSep (sep : Char) : List (List Char) → List Char
  | [] => []
  | [x] => x
  | x :: y :: rest => x ++ sep :: joinSep sep (y :: rest)

theorem splitChar_ne_nil (sep : Char) (s : List Char) : splitChar sep s ≠ [] := by
  induction s with
  | nil => simp [splitChar]
  | cons c rest ih =>
    rw [splitChar]
    by_cases h : c = sep
    · simp [h]
    · rw [if_neg h]
      cases hs : splitChar sep rest with
      | nil => simp
      | cons a b => simp

theorem splitChar_append (sep : Char) (x s : List Char) (hx : sep ∉ x) {h : List Char}
    {t : List (List Char)} (hs : splitChar sep s = h :: t) :
    splitChar sep (x ++ s) = (x ++ h) :: t := by
  induction x with
  | nil => simpa using hs
  | cons c cx ih =>
    have hc : c ≠ sep := fun hcs => hx (hcs ▸ List.mem_cons_self c cx)
    have hx' : sep ∉ cx := fun hm => hx (List.mem_cons_of_mem _ hm)
    rw [show (c :: cx) ++ s = c :: (cx ++ s) from rfl, splitChar, if_neg hc, ih hx']
    rfl

theorem splitChar_joinSep (sep : Char) (parts : List (List Char)) (hne : parts ≠ [])
    (hfree : ∀ p ∈ parts, sep ∉ p) : splitChar sep (joinSep sep parts) = parts := by
  induction parts with
  | nil => exact absurd rfl hne
  | cons p ps ih =>
    cases ps with
    | nil =>
      rw [joinSep]
      have : splitChar sep ([] : List Char) = [] :: [] := rfl
      have h2 := splitChar_append sep p [] (hfree p (List.mem_cons_self p [])) this
      simpa using h2
    | cons q qs =>
      rw [joinSep]
      have hrec : splitChar sep (joinSep sep (q :: qs)) = q :: qs :=
        ih (by simp) (fun r hr => hfree r (List.mem_cons_of_mem _ hr))
      have hstep : splitChar sep (sep :: joinSep sep (q :: qs)) = [] :: q :: qs := by
        rw [splitChar, if_pos rfl, hrec]
      have h2 := splitChar_append sep p (sep :: joinSep sep (q :: qs))
        (hfree p (List.mem_cons_self p (q :: qs))) hstep
      simpa using h2

/-! ### Base-128 variable-length integers (varint)

Modelled from the spec: least-significant 7-bit group first, high bit is
the continuation flag. -/

/-- Fuel-indexed varint encoding loop (structural recursion so that the
kernel can evaluate it). -/
def varintEncodeGo : Nat → Nat → List Nat
  | 0, n => [n]
  | fuel + 1, n =>
    if n < 128 then [n]
    else (n % 128 + 128) :: varintEncodeGo fuel (n / 128)

/-- Encode a natural number as a varint byte list. -/
def varintEncode (n : Nat) : List Nat :=
  varintEncodeGo n n

theorem varintEncodeGo_fuel : ∀ n fuel, n ≤ fuel →
    varintEncodeGo fuel n = varintEncode n := by
  intro n
  induction n using Nat.strong_induction_on with
  | _ n ih =>
    intro fuel hn
    cases n with
    | zero =>
      cases fuel with
      | zero => rfl
      | succ f =>
        rw [varintEncode]
        show (if 0 < 128 then _ else _) = _
        rw [if_pos (by omega)]
        rfl
    | succ m =>
      cases fuel with
      | zero => omega
      | succ f =>
        rw [varintEncode, varintEncodeGo, varintEncodeGo]
        by_cases h : m + 1 < 128
        · rw [if_pos h, if_pos h]
        · rw [if_neg h, if_neg h]
          have hdiv : (m + 1) / 128 < m + 1 := Nat.div_lt_self (by omega) (by omega)
          rw [ih ((m + 1) / 128) hdiv f (by omega),
            ih ((m + 1) / 128) hdiv m (by omega)]

/-- The defining recurrence of `varintEncode`. -/
theorem varintEncode_unfold (n : Nat) :
    varintEncode n = if n < 128 then [n]
      else (n % 128 + 128) :: varintEncode (n / 128) := by
  cases n with
  | zero =>
    rw [if_pos (by omega)]
    rfl
  | succ m =>
    rw [varintEncode, varintEncodeGo]
    by_cases h : m + 1 < 128
    · rw [if_pos h, if_pos h]
    · rw [if_neg h, if_neg h]
      have hdiv : (m + 1) / 128 < m + 1 := Nat.div_lt_self (by omega) (by omega)
      rw [varintEncodeGo_fuel ((m + 1) / 128) m (by omega)]

/-- Decode a varint from the front of a byte list, returning the value and
the number of bytes consumed. -/
def varintDecode : List Nat → Option (Nat × Nat)
  | [] => none
  | b :: rest =>
    if b < 128 then some (b, 1)
    else
      match varintDecode rest with
      | some (v, m) => some (b % 128 + 128 * v, m + 1)
      | none => none

theorem varintEncode_ne_nil (n : Nat) : varintEncode n ≠ [] := by
  rw [varintEncode_unfold]
  split <;> simp

theorem varintEncode_length_pos (n : Nat) : 0 < (varintEncode n).length :=
  List.length_pos.mpr (varintEncode_ne_nil n)

theorem varintEncode_lt_256 (n : Nat) {b : Nat} (hb : b ∈ varintEncode n) : b < 256 := by
  induction n using Nat.strong_induction_on with
  | _ n ih =>
    rw [varintEncode_unfold] at hb
    by_cases h : n < 128
    · rw [if_pos h] at hb
      simp only [List.mem_singleton] at hb
      omega
    · rw [if_neg h] at hb
      rcases List.mem_cons.mp hb with h1 | h2
      · have := Nat.mod_lt n (show 0 < 128 by omega)
        omega
      · exact ih (n / 128) (Nat.div_lt_self (by omega) (by omega)) h2

theorem varintDecode_encode (n : Nat) (rest : List Nat) :
    varintDecode (varintEncode n ++ rest) = some (n, (varintEncode n).length) := by
  induction n using Nat.strong_induction_on with
  | _ n ih =>
    rw [varintEncode_unfold]
    by_cases h : n < 128
    · rw [if_pos h]
      simp [varintDecode, h]
    · rw [if_neg h]
      have hge : ¬ n % 128 + 128 < 128 := by omega
      simp only [List.cons_append, varintDecode, if_neg hge, List.append_eq]
      rw [ih (n / 128) (Nat.div_lt_self (by omega) (by omega))]
      have hval : (n % 128 + 128) % 128 + 128 * (n / 128) = n := by omega
      show some ((n % 128 + 128) % 128 + 128 * (n / 128), (varintEncode (n / 128)).length + 1)
        = some (n, ((n % 128 + 128) :: varintEncode (n / 128)).length)
      rw [hval]
      simp

/-! ### Protocol registry

Modelled from the spec: `./protocols` is not in `src/`; the spec fixes a
fixed table of descriptors with code, size policy (bit width, `0` for
flag protocols, negative for variable-length-prefixed values) and name. -/

/-- A protocol descriptor: code, size in bits (`-1` = variable-length
prefixed, `0` = no value), and name. -/
structure Protocol where
  code : Nat
  size : Int
  name : List Char
  deriving DecidableEq, Repr

/-- The fixed protocol table. -/
def protocolTable : List Protocol :=
  [⟨4, 32, "ip4".toList⟩,
   ⟨6, 16, "tcp".toList⟩,
   ⟨17, 16, "udp".toList⟩,
   ⟨33, 16, "dccp".toList⟩,
   ⟨41, 128, "ip6".toList⟩,
   ⟨132, 16, "sctp".toList⟩,
   ⟨301, 0, "udt".toList⟩,
   ⟨302, 0, "utp".toList⟩,
   ⟨421, -1, "ipfs".toList⟩,
   ⟨443, 0, "https".toList⟩,
   ⟨477, 0, "ws".toList⟩,
   ⟨480, 0, "http".toList⟩]

/-- Registry lookup by code. -/
def protocols (code : Nat) : Option Protocol :=
  protocolTable.find? (fun p => decide (p.code = code))

/-- Registry lookup by name. -/
def protocolsByName (name : List Char) : Option Protocol :=
  protocolTable.find? (fun p => decide (p.name = name))

theorem protocols_mem {code : Nat} {p : Protocol} (h : protocols code = some p) :
    p ∈ protocolTable ∧ p.code = code := by
  refine ⟨List.mem_of_find?_eq_some h, ?_⟩
  have := List.find?_some h
  simpa using this

theorem protocolsByName_name {code : Nat} {p : Protocol} (h : protocols code = some p) :
    protocolsByName p.name = some p := by
  obtain ⟨hm, _⟩ := protocols_mem h
  fin_cases hm <;> decide

theorem protocols_name_ne_nil {code : Nat} {p : Protocol} (h : protocols code = some p) :
    p.name ≠ [] := by
  obtain ⟨hm, _⟩ := protocols_mem h
  fin_cases hm <;> decide

theorem protocols_name_no_slash {code : Nat} {p : Protocol} (h : protocols code = some p) :
    '/' ∉ p.name := by
  obtain ⟨hm, _⟩ := protocols_mem h
  fin_cases hm <;> decide

/-! ### Per-protocol value conversion

Modelled from the spec: the converter module is not in `src/`. Ports are
decimal in `[0, 65535]` over two big-endian bytes, IPv4 is the dotted
quad, IPv6 is colon-separated hexadecimal 16-bit groups, and the
variable-length identifier value is rendered as lowercase hex pairs (the
spec fixes only that it is some injective text transform of the bytes). -/

/-- Parse a decimal port string into its two big-endian bytes. -/
def portToBytes (s : List Char) : Option (List Nat) :=
  match parseDigits 10 s with
  | some n => if n < 65536 then some [n / 256, n % 256] else none
  | none => none

/-- Render two big-endian port bytes as a decimal string. -/
def portToString (v : List Nat) : Option (List Char) :=
  match v with
  | [a, b] => some (natToBase 10 (a * 256 + b))
  | _ => none

/-- Parse a list of decimal octet strings, each below 256. -/
def parseOctets : List (List Char) → Option (List Nat)
  | [] => some []
  | s :: rest =>
    match parseDigits 10 s with
    | some n => if n < 256 then (parseOctets rest).map (fun v => n :: v) else none
    | none => none

/-- Parse a dotted-quad IPv4 string into its four bytes. -/
def ip4ToBytes (s : List Char) : Option (List Nat) :=
  let parts := splitChar '.' s
  if parts.length = 4 then parseOctets parts else none

/-- Render four IPv4 bytes as a dotted quad. -/
def ip4ToString (v : List Nat) : Option (List Char) :=
  match v with
  | [a, b, c, d] =>
    some (joinSep '.' [natToBase 10 a, natToBase 10 b, natToBase 10 c, natToBase 10 d])
  | _ => none

/-- Parse a list of hexadecimal 16-bit group strings. -/
def parseGroups : List (List Char) → Option (List Nat)
  | [] => some []
  | s :: rest =>
    match parseDigits 16 s with
    | some n => if n < 65536 then (parseGroups rest).map (fun v => n :: v) else none
    | none => none

/-- Expand 16-bit groups into big-endian byte pairs. -/
def wordsToBytes (ws : List Nat) : List Nat :=
  (ws.map (fun w => [w / 256, w % 256])).flatten

/-- Contract a byte list into 16-bit big-endian groups. -/
def bytesToWords : List Nat → Option (List Nat)
  | [] => some []
  | a :: b :: rest => (bytesToWords rest).map (fun ws => (a * 256 + b) :: ws)
  | [_] => none

/-- Parse a colon-hex IPv6 string into its sixteen bytes. -/
def ip6ToBytes (s : List Char) : Option (List Nat) :=
  let parts := splitChar ':' s
  if parts.length = 8 then (parseGroups parts).map wordsToBytes else none

/-- Render sixteen IPv6 bytes as colon-separated hex groups. -/
def ip6ToString (v : List Nat) : Option (List Char) :=
  if v.length = 16 then
    (bytesToWords v).map (fun ws => joinSep ':' (ws.map (natToBase 16)))
  else none

/-- Render bytes as lowercase hex pairs. -/
def bytesToHex (v : List Nat) : List Char :=
  (v.map (fun b => [digitChar (b / 16), digitChar (b % 16)])).flatten

/-- Parse lowercase hex pairs back into bytes. -/
def hexToBytes : List Char → Option (List Nat)
  | [] => some []
  | a :: b :: rest =>
    match charToDigit a, charToDigit b with
    | some x, some y =>
      if x < 16 ∧ y < 16 then (hexToBytes rest).map (fun v => (x * 16 + y) :: v) else none
    | _, _ => none
  | [_] => none

/-- String-to-bytes transform, dispatched on the protocol code. -/
def addrToBytes (code : Nat) (s : List Char) : Option (List Nat) :=
  if code = 4 then ip4ToBytes s
  else if code = 41 then ip6ToBytes s
  else if code = 6 ∨ code = 17 ∨ code = 33 ∨ code = 132 then portToBytes s
  else if code = 421 then hexToBytes s
  else none

/-- Bytes-to-string transform, dispatched on the protocol code. -/
def addrToString (code : Nat) (v : List Nat) : Option (List Char) :=
  if code = 4 then ip4ToString v
  else if code = 41 then ip6ToString v
  else if code = 6 ∨ code = 17 ∨ code = 33 ∨ code = 132 then portToString v
  else if code = 421 then some (bytesToHex v)
  else none

/-! ### Tuple layer and binary codec

Modelled from the spec: `./codec` is not in `src/`. An address is the
concatenation of `varint(code) [varint(len)] valueBytes` tuples. -/

/-- Well-formedness of a single (code, raw value) tuple: the code resolves
in the registry and the value matches the descriptor's size policy. -/
def tupOK (t : Nat × List Nat) : Bool :=
  match protocols t.1 with
  | some p =>
    t.2.all (fun b => decide (b < 256)) &&
    (if p.size > 0 then decide (t.2.length = p.size.toNat / 8)
     else if p.size = 0 then t.2.isEmpty
     else true)
  | none => false

/-- Well-formedness of a tuple list. -/
def tuplesOK (ts : List (Nat × List Nat)) : Bool :=
  ts.all tupOK

/-- Serialize a single tuple to its canonical bytes. -/
def tupToBuffer (t : Nat × List Nat) : List Nat :=
  match protocols t.1 with
  | some p =>
    varintEncode t.1 ++ (if p.size < 0 then varintEncode t.2.length else []) ++ t.2
  | none => []

/-- Serialize a tuple list to the canonical address bytes
(the codec's `tuplesToBuffer` / `fromTuples`). -/
def tuplesToBuffer (ts : List (Nat × List Nat)) : List Nat :=
  (ts.map tupToBuffer).flatten

/-- Byte size of the value slice starting a remaining buffer: the fixed
byte width, zero, or length-prefix width plus claimed payload length
(the codec's `sizeForAddr`); fails on a malformed or overrunning prefix. -/
def sizeForAddr (p : Protocol) (addr : List Nat) : Option Nat :=
  if p.size > 0 then some (p.size.toNat / 8)
  else if p.size = 0 then some 0
  else
    match varintDecode addr with
    | some (len, m) => if m + len ≤ addr.length then some (m + len) else none
    | none => none

/-- Fuel-indexed tuple walk over a buffer (the codec's `bufferToTuples`). -/
def bufferToTuplesGo : Nat → List Nat → Option (List (Nat × List Nat))
  | _, [] => some []
  | 0, _ :: _ => none
  | Nat.succ fuel, b =>
    match varintDecode b with
    | none => none
    | some (code, n) =>
      match protocols code with
      | none => none
      | some p =>
        let rest := b.drop n
        if p.size = 0 then
          (bufferToTuplesGo fuel rest).map (fun ts => (code, []) :: ts)
        else if p.size > 0 then
          let w := p.size.toNat / 8
          if rest.length < w then none
          else (bufferToTuplesGo fuel (rest.drop w)).map (fun ts => (code, rest.take w) :: ts)
        else
          match varintDecode rest with
          | none => none
          | some (len, m) =>
            if rest.length < m + len then none
            else
              (bufferToTuplesGo fuel ((rest.drop m).drop len)).map
                (fun ts => (code, (rest.drop m).take len) :: ts)

/-- Decompose a buffer into its (code, raw value) tuples. -/
def bufferToTuples (b : List Nat) : Option (List (Nat × List Nat)) :=
  bufferToTuplesGo (b.length + 1) b

/-- The `/`-separated segments contributed by one tuple: the protocol name
alone for a flag protocol, otherwise the name and the rendered value. -/
def tupSegs (t : Nat × List Nat) : Option (List (List Char)) :=
  match protocols t.1 with
  | none => none
  | some p =>
    if p.size = 0 then some [p.name]
    else (addrToString t.1 t.2).map (fun s => [p.name, s])

/-- The segments of a tuple list, in order. -/
def tuplesSegs : List (Nat × List Nat) → Option (List (List Char))
  | [] => some []
  | t :: ts =>
    match tupSegs t, tuplesSegs ts with
    | some a, some b => some (a ++ b)
    | _, _ => none

/-- Render segments as a canonical string: each segment preceded by `/`. -/
def renderSegs (segs : List (List Char)) : List Char :=
  (segs.map (fun seg => '/' :: seg)).flatten

/-- Canonical string of a tuple list. -/
def tuplesToString (ts : List (Nat × List Nat)) : Option (List Char) :=
  (tuplesSegs ts).map renderSegs

/-- Render a buffer as its canonical string (the codec's `bufferToString`). -/
def bufferToString (b : List Nat) : Option (List Char) :=
  (bufferToTuples b).bind tuplesToString

/-- Walk the `/`-separated segments of a string, consuming a name and,
for protocols with a value, the following value segment (the string
parsing half of the codec's `fromString`). -/
def segsToTuples : List (List Char) → Except MError (List (Nat × List Nat))
  | [] => .ok []
  | name :: rest =>
    match protocolsByName name with
    | none => .error .unknownProtocol
    | some p =>
      if p.size = 0 then (segsToTuples rest).map (fun ts => (p.code, []) :: ts)
      else
        match rest with
        | [] => .error .invalidFormat
        | v :: rest2 =>
          match addrToBytes p.code v with
          | none => .error .invalidValue
          | some bytes => (segsToTuples rest2).map (fun ts => (p.code, bytes) :: ts)

/-- Parse a canonical string into address bytes (the codec's `fromString`):
requires a leading separator, the empty string maps to the empty address. -/
def fromString (s : List Char) : Except MError (List Nat) :=
  match s with
  | [] => .ok []
  | c :: rest =>
    if c = '/' then
      if rest = [] then .ok []
      else (segsToTuples (splitChar '/' rest)).map tuplesToBuffer
    else .error .invalidFormat

/-- Validate-and-copy construction from bytes (the codec's `fromBuffer`):
the full structural walk must succeed. -/
def fromBuffer (b : List Nat) : Except MError (List Nat) :=
  match bufferToTuples b with
  | some _ => .ok b
  | none => .error .invalidAddress

/-! ### JS string search used by `decapsulate` -/

/-- Whether `pat` occurs in `s` at index `i`. -/
def matchAt (s pat : List Char) (i : Nat) : Bool :=
  decide ((s.drop i).take pat.length = pat)

/-- Scan for the last occurrence at an index at most `i`. -/
def lastIndexAux (s pat : List Char) : Nat → Option Nat
  | 0 => if matchAt s pat 0 then some 0 else none
  | i + 1 => if matchAt s pat (i + 1) then some (i + 1) else lastIndexAux s pat i

/-- JS `String.prototype.lastIndexOf`: the largest index at which `pat`
occurs in `s`, with `none` standing for the JS result `-1`. -/
def lastIndexOf (s pat : List Char) : Option Nat :=
  lastIndexAux s pat s.length

/-! ### The Multiaddr wrapper (embedded from `src/src/index.js`) -/

/-- A constructed multiaddr: the canonical byte buffer is the only state. -/
structure Multiaddr where
  buffer : List Nat
  deriving DecidableEq, Repr

/-- The JS values the `Multiaddr` constructor accepts or rejects. -/
inductive JSValue where
  | undef
  | null
  | str (s : List Char)
  | buf (b : List Nat)
  | ma (m : Multiaddr)

/-- JS falsiness of a constructor argument (`undefined`, `null`, `''`). -/
def falsy : JSValue → Bool
  | .undef => true
  | .null => true
  | .str [] => true
  | _ => false

/-- The `Multiaddr` constructor (index.js lines 19-38): falsy input is
replaced by the empty string, then a buffer is validated, a string is
parsed, and another multiaddr is revalidated-and-copied. -/
def mkMultiaddr (addr : JSValue) : Except MError Multiaddr :=
  let addr' := if falsy addr then JSValue.str [] else addr
  match addr' with
  | .buf b => (fromBuffer b).map Multiaddr.mk
  | .str s => (fromString s).map Multiaddr.mk
  | .ma m => (fromBuffer m.buffer).map Multiaddr.mk
  | .undef => .error .badArg
  | .null => .error .badArg

/-- Method `toString` (index.js lines 48-50). -/
def Multiaddr.toString (m : Multiaddr) : Option (List Char) :=
  bufferToString m.buffer

/-- Method `toString` lifted into `Except`, as used by the composition methods
(a render failure surfaces as a thrown error in JS). -/
def toStringE (m : Multiaddr) : Except MError (List Char) :=
  match bufferToString m.buffer with
  | some s => .ok s
  | none => .error .invalidAddress

/-- The options record returned by `toOptions`. -/
structure NetOptions where
  family : List Char
  host : List Char
  transport : List Char
  port : List Char
  deriving DecidableEq, Repr

/-- Method `toOptions` (index.js lines 64-72): positional fields of the split
string; a missing index (JS `undefined`) is modelled as the empty string. -/
def Multiaddr.toOptions (m : Multiaddr) : Option NetOptions :=
  (Multiaddr.toString m).map (fun s =>
    let parsed := splitChar '/' s
    { family := if parsed.getD 1 [] = "ip4".toList then "ipv4".toList else "ipv6".toList
      host := parsed.getD 2 []
      transport := parsed.getD 3 []
      port := parsed.getD 4 [] })

/-- Fuel-indexed loop of `protoCodes` (index.js lines 114-130): decode a
code varint, look it up, advance over the value via `sizeForAddr`. -/
def protoCodesGo : Nat → List Nat → Option (List Nat)
  | _, [] => some []
  | 0, _ :: _ => none
  | Nat.succ fuel, b =>
    match varintDecode b with
    | none => none
    | some (code, n) =>
      match protocols code with
      | none => none
      | some p =>
        match sizeForAddr p (b.drop n) with
        | none => none
        | some size => (protoCodesGo fuel ((b.drop n).drop size)).map (fun cs => code :: cs)

/-- Method `protoCodes` (index.js lines 114-130). -/
def Multiaddr.protoCodes (m : Multiaddr) : Option (List Nat) :=
  protoCodesGo (m.buffer.length + 1) m.buffer

/-- Resolve each code in the registry. -/
def protosOfCodes : List Nat → Option (List Protocol)
  | [] => some []
  | c :: cs =>
    match protocols c with
    | some p => (protosOfCodes cs).map (fun ps => p :: ps)
    | none => none

/-- Method `protos` (index.js lines 99-104): the descriptor of each code, copied. -/
def Multiaddr.protos (m : Multiaddr) : Option (List Protocol) :=
  (Multiaddr.protoCodes m).bind protosOfCodes

/-- Method `protoNames` (index.js lines 140-144). -/
def Multiaddr.protoNames (m : Multiaddr) : Option (List (List Char)) :=
  (Multiaddr.protos m).map (List.map Protocol.name)

/-- Method `tuples` (index.js lines 156-158). -/
def Multiaddr.tuples (m : Multiaddr) : Option (List (Nat × List Nat)) :=
  bufferToTuples m.buffer

/-- Method `encapsulate` (index.js lines 188-191): re-wrap the argument, then
parse the concatenation of the two rendered strings. -/
def Multiaddr.encapsulate (m other : Multiaddr) : Except MError Multiaddr := do
  let o ← mkMultiaddr (.ma other)
  let s1 ← toStringE m
  let s2 ← toStringE o
  mkMultiaddr (.str (s1 ++ s2))

/-- Method `decapsulate` (index.js lines 208-216): last occurrence of the
argument's string in this string; the prefix before it is re-parsed. -/
def Multiaddr.decapsulate (m other : Multiaddr) : Except MError Multiaddr := do
  let a ← toStringE other
  let s ← toStringE m
  match lastIndexOf s a with
  | none => .error .notContained
  | some i => mkMultiaddr (.str (s.take i))

/-- Method `equals` (index.js lines 233-235): byte equality of the two buffers. -/
def Multiaddr.equals (m other : Multiaddr) : Bool :=
  decide (m.buffer = other.buffer)

/-- The record returned by `nodeAddress`. -/
structure NodeAddr where
  family : List Char
  address : List Char
  port : List Char
  deriving DecidableEq, Repr

/-- Method `isThinWaistAddress` (index.js lines 262-276): exactly two protocols,
the first with code 4 or 41, the second with code 6 or 17. -/
def Multiaddr.isThinWaistAddress (m : Multiaddr) : Option Bool :=
  (Multiaddr.protos m).map (fun ps =>
    if ps.length ≠ 2 then false
    else if (ps.getD 0 ⟨0, 0, []⟩).code ≠ 4 ∧ (ps.getD 0 ⟨0, 0, []⟩).code ≠ 41 then false
    else if (ps.getD 1 ⟨0, 0, []⟩).code ≠ 6 ∧ (ps.getD 1 ⟨0, 0, []⟩).code ≠ 17 then false
    else true)

/-- Method `nodeAddress` (index.js lines 238-250): requires a thin-waist address,
then reads family from the first code and host and port from the split
string. -/
def Multiaddr.nodeAddress (m : Multiaddr) : Except MError NodeAddr :=
  match Multiaddr.isThinWaistAddress m with
  | none => .error .invalidAddress
  | some false => .error .invalidFormat
  | some true =>
    match Multiaddr.protoCodes m, Multiaddr.toString m with
    | some codes, some s =>
      let parts := (splitChar '/' s).drop 1
      .ok { family := if codes.getD 0 0 = 41 then "IPv6".toList else "IPv4".toList
            address := parts.getD 1 []
            port := parts.getD 3 [] }
    | _, _ => .error .invalidAddress

/-! ### Value-level roundtrips -/

theorem mem_joinSep {sep : Char} {parts : List (List Char)} {c : Char}
    (hc : c ∈ joinSep sep parts) : c = sep ∨ ∃ p ∈ parts, c ∈ p := by
  induction parts with
  | nil => simp [joinSep] at hc
  | cons p ps ih =>
    cases ps with
    | nil =>
      rw [joinSep] at hc
      exact Or.inr ⟨p, by simp, hc⟩
    | cons q qs =>
      rw [joinSep] at hc
      rcases List.mem_append.mp hc with h1 | h2
      · exact Or.inr ⟨p, by simp, h1⟩
      · rcases List.mem_cons.mp h2 with h3 | h4
        · exact Or.inl h3
        · rcases ih h4 with h5 | ⟨r, hr, hcr⟩
          · exact Or.inl h5
          · exact Or.inr ⟨r, List.mem_cons_of_mem _ hr, hcr⟩

theorem hexToBytes_bytesToHex (v : List Nat) (hv : ∀ b ∈ v, b < 256) :
    hexToBytes (bytesToHex v) = some v := by
  induction v with
  | nil => rfl
  | cons b rest ih =>
    have hb : b < 256 := hv b (List.mem_cons_self b rest)
    have hhi : b / 16 < 16 := by omega
    have hlo : b % 16 < 16 := by omega
    show hexToBytes (digitChar (b / 16) :: digitChar (b % 16) :: bytesToHex rest) = some (b :: rest)
    rw [hexToBytes, charToDigit_digitChar hhi, charToDigit_digitChar hlo]
    simp only [hhi, hlo, and_self, if_pos]
    rw [ih (fun x hx => hv x (List.mem_cons_of_mem _ hx))]
    have : b / 16 * 16 + b % 16 = b := by omega
    rw [this]
    rfl

theorem mem_bytesToHex_ne_slash {v : List Nat} (hv : ∀ b ∈ v, b < 256) {c : Char}
    (hc : c ∈ bytesToHex v) : c ≠ '/' := by
  rw [bytesToHex] at hc
  rcases List.mem_flatten.mp hc with ⟨l, hl, hcl⟩
  rcases List.mem_map.mp hl with ⟨b, hbv, rfl⟩
  have hb : b < 256 := hv b hbv
  rcases List.mem_cons.mp hcl with h1 | h2
  · exact h1 ▸ (digitChar_ne (by omega : b / 16 < 16)).1
  · have h3 : c = digitChar (b % 16) := by simpa using h2
    exact h3 ▸ (digitChar_ne (by omega : b % 16 < 16)).1

theorem portToBytes_portToString {a b : Nat} (ha : a < 256) (hb : b < 256) :
    portToBytes (natToBase 10 (a * 256 + b)) = some [a, b] := by
  rw [portToBytes, parseDigits_natToBase 10 _ (by omega) (by omega)]
  have hlt : a * 256 + b < 65536 := by omega
  simp only [hlt, if_pos]
  have h1 : (a * 256 + b) / 256 = a := by omega
  have h2 : (a * 256 + b) % 256 = b := by omega
  rw [h1, h2]

theorem parseOctets_map (v : List Nat) (hv : ∀ b ∈ v, b < 256) :
    parseOctets (v.map (natToBase 10)) = some v := by
  induction v with
  | nil => rfl
  | cons b rest ih =>
    show parseOctets (natToBase 10 b :: rest.map (natToBase 10)) = some (b :: rest)
    rw [parseOctets, parseDigits_natToBase 10 b (by omega) (by omega)]
    have hb : b < 256 := hv b (List.mem_cons_self b rest)
    simp only [hb, if_pos]
    rw [ih (fun x hx => hv x (List.mem_cons_of_mem _ hx))]
    rfl

theorem ip4_roundtrip {a b c d : Nat} (ha : a < 256) (hb : b < 256) (hc : c < 256)
    (hd : d < 256) {s : List Char} (hs : ip4ToString [a, b, c, d] = some s) :
    ip4ToBytes s = some [a, b, c, d] := by
  rw [ip4ToString] at hs
  have hsval : s = joinSep '.' [natToBase 10 a, natToBase 10 b, natToBase 10 c, natToBase 10 d] := by
    simpa using hs.symm
  have hfree : ∀ p ∈ [natToBase 10 a, natToBase 10 b, natToBase 10 c, natToBase 10 d],
      '.' ∉ p := by
    intro p hp hdot
    have : ∃ n, p = natToBase 10 n := by
      rcases List.mem_cons.mp hp with h | h
      · exact ⟨a, h⟩
      rcases List.mem_cons.mp h with h | h
      · exact ⟨b, h⟩
      rcases List.mem_cons.mp h with h | h
      · exact ⟨c, h⟩
      rcases List.mem_cons.mp h with h | h
      · exact ⟨d, h⟩
      · simp at h
    obtain ⟨n, rfl⟩ := this
    obtain ⟨k, hk, hkc⟩ := mem_natToBase 10 n (by omega) hdot
    exact absurd hkc.symm (digitChar_ne (by omega)).2.1
  have hsplit := splitChar_joinSep '.'
    [natToBase 10 a, natToBase 10 b, natToBase 10 c, natToBase 10 d] (by simp) hfree
  rw [ip4ToBytes, hsval]
  simp only [hsplit]
  have hlen : ([natToBase 10 a, natToBase 10 b, natToBase 10 c, natToBase 10 d]).length = 4 := by
    simp
  rw [if_pos hlen]
  have := parseOctets_map [a, b, c, d] (by
    intro x hx
    rcases List.mem_cons.mp hx with h | h
    · omega
    rcases List.mem_cons.mp h with h | h
    · omega
    rcases List.mem_cons.mp h with h | h
    · omega
    rcases List.mem_cons.mp h with h | h
    · omega
    · simp at h)
  simpa using this

theorem bytesToWords_spec (k : Nat) (v : List Nat) (hv : ∀ b ∈ v, b < 256)
    (hlen : v.length = 2 * k) :
    ∃ ws, bytesToWords v = some ws ∧ ws.length = k ∧ (∀ w ∈ ws, w < 65536) ∧
      wordsToBytes ws = v := by
  induction k generalizing v with
  | zero =>
    cases v with
    | nil => exact ⟨[], rfl, rfl, by simp, rfl⟩
    | cons a rest => simp at hlen
  | succ k ih =>
    cases v with
    | nil => simp at hlen
    | cons a v' =>
      cases v' with
      | nil => exact absurd hlen (by simp; omega)
      | cons b rest =>
        have ha : a < 256 := hv a (by simp)
        have hbb : b < 256 := hv b (by simp)
        have hrest : ∀ x ∈ rest, x < 256 := fun x hx => hv x (by simp [hx])
        have hrl : rest.length = 2 * k := by
          simp only [List.length_cons] at hlen
          omega
        obtain ⟨ws, hws, hwl, hwb, hwv⟩ := ih rest hrest hrl
        refine ⟨(a * 256 + b) :: ws, ?_, by simp [hwl], ?_, ?_⟩
        · rw [bytesToWords, hws]
          rfl
        · intro w hw
          rcases List.mem_cons.mp hw with h | h
          · omega
          · exact hwb w h
        · show wordsToBytes ((a * 256 + b) :: ws) = a :: b :: rest
          rw [wordsToBytes]
          simp only [List.map_cons, List.flatten_cons]
          have h1 : (a * 256 + b) / 256 = a := by omega
          have h2 : (a * 256 + b) % 256 = b := by omega
          rw [h1, h2]
          rw [wordsToBytes] at hwv
          simp [hwv]

theorem parseGroups_map (ws : List Nat) (hw : ∀ w ∈ ws, w < 65536) :
    parseGroups (ws.map (natToBase 16)) = some ws := by
  induction ws with
  | nil => rfl
  | cons w rest ih =>
    show parseGroups (natToBase 16 w :: rest.map (natToBase 16)) = some (w :: rest)
    rw [parseGroups, parseDigits_natToBase 16 w (by omega) (by omega)]
    have hb : w < 65536 := hw w (List.mem_cons_self w rest)
    simp only [hb, if_pos]
    rw [ih (fun x hx => hw x (List.mem_cons_of_mem _ hx))]
    rfl

theorem ip6_roundtrip {v : List Nat} (hv : ∀ b ∈ v, b < 256) (hlen : v.length = 16)
    {s : List Char} (hs : ip6ToString v = some s) : ip6ToBytes s = some v := by
  obtain ⟨ws, hws, hwl, hwb, hwv⟩ := bytesToWords_spec 8 v hv (by omega)
  rw [ip6ToString, if_pos hlen, hws] at hs
  have hsval : s = joinSep ':' (ws.map (natToBase 16)) := by simpa using hs.symm
  have hfree : ∀ p ∈ ws.map (natToBase 16), ':' ∉ p := by
    intro p hp hcol
    rcases List.mem_map.mp hp with ⟨w, _, rfl⟩
    obtain ⟨k, hk, hkc⟩ := mem_natToBase 16 w (by omega) hcol
    exact absurd hkc.symm (digitChar_ne (by omega)).2.2
  have hne : ws.map (natToBase 16) ≠ [] := by
    intro hcon
    have : ws = [] := by simpa using hcon
    rw [this] at hwl
    simp at hwl
  have hsplit := splitChar_joinSep ':' (ws.map (natToBase 16)) hne hfree
  rw [ip6ToBytes, hsval]
  simp only [hsplit]
  have hlen8 : (ws.map (natToBase 16)).length = 8 := by simp [hwl]
  rw [if_pos hlen8, parseGroups_map ws hwb]
  simp [hwv]

theorem list_len_two {α : Type} {v : List α} (h : v.length = 2) : ∃ a b, v = [a, b] := by
  rcases v with _ | ⟨a, _ | ⟨b, _ | ⟨c, tl⟩⟩⟩
  · simp at h
  · simp at h
  · exact ⟨a, b, rfl⟩
  · simp at h

theorem list_len_four {α : Type} {v : List α} (h : v.length = 4) :
    ∃ a b c d, v = [a, b, c, d] := by
  rcases v with _ | ⟨a, _ | ⟨b, _ | ⟨c, _ | ⟨d, _ | ⟨e, tl⟩⟩⟩⟩⟩ <;> simp at h
  exact ⟨a, b, c, d, rfl⟩

theorem port_branch {c : Nat} (hc : c = 6 ∨ c = 17 ∨ c = 33 ∨ c = 132) {v : List Nat}
    (hv : ∀ b ∈ v, b < 256) (hlen : v.length = 2) :
    ∃ vs, addrToString c v = some vs ∧ '/' ∉ vs ∧ addrToBytes c vs = some v := by
  obtain ⟨a, b, rfl⟩ := list_len_two hlen
  have ha : a < 256 := hv a (by simp)
  have hb : b < 256 := hv b (by simp)
  have hc4 : c ≠ 4 := by omega
  have hc41 : c ≠ 41 := by omega
  have hc421 : c ≠ 421 := by omega
  refine ⟨natToBase 10 (a * 256 + b), ?_, ?_, ?_⟩
  · rw [addrToString, if_neg hc4, if_neg hc41, if_pos hc]
    rfl
  · intro hmem
    exact absurd rfl (mem_natToBase_ne_slash 10 _ (by omega) (by omega) hmem)
  · rw [addrToBytes, if_neg hc4, if_neg hc41, if_pos hc]
    exact portToBytes_portToString ha hb

theorem ip4_branch {v : List Nat} (hv : ∀ b ∈ v, b < 256) (hlen : v.length = 4) :
    ∃ vs, addrToString 4 v = some vs ∧ '/' ∉ vs ∧ addrToBytes 4 vs = some v := by
  obtain ⟨a, b, c, d, rfl⟩ := list_len_four hlen
  have ha : a < 256 := hv a (by simp)
  have hb : b < 256 := hv b (by simp)
  have hcc : c < 256 := hv c (by simp)
  have hd : d < 256 := hv d (by simp)
  have hrender : ip4ToString [a, b, c, d]
      = some (joinSep '.' [natToBase 10 a, natToBase 10 b, natToBase 10 c, natToBase 10 d]) := rfl
  refine ⟨joinSep '.' [natToBase 10 a, natToBase 10 b, natToBase 10 c, natToBase 10 d], ?_, ?_, ?_⟩
  · rw [addrToString, if_pos rfl]
    exact hrender
  · intro hmem
    rcases mem_joinSep hmem with h1 | ⟨p, hp, hcp⟩
    · exact absurd h1 (by decide)
    · have : ∃ n, p = natToBase 10 n := by
        rcases List.mem_cons.mp hp with h | h
        · exact ⟨a, h⟩
        rcases List.mem_cons.mp h with h | h
        · exact ⟨b, h⟩
        rcases List.mem_cons.mp h with h | h
        · exact ⟨c, h⟩
        rcases List.mem_cons.mp h with h | h
        · exact ⟨d, h⟩
        · simp at h
      obtain ⟨n, rfl⟩ := this
      exact absurd rfl (mem_natToBase_ne_slash 10 n (by omega) (by omega) hcp)
  · rw [addrToBytes, if_pos rfl]
    exact ip4_roundtrip ha hb hcc hd hrender

theorem ip6_branch {v : List Nat} (hv : ∀ b ∈ v, b < 256) (hlen : v.length = 16) :
    ∃ vs, addrToString 41 v = some vs ∧ '/' ∉ vs ∧ addrToBytes 41 vs = some v := by
  obtain ⟨ws, hws, hwl, hwb, hwv⟩ := bytesToWords_spec 8 v hv (by omega)
  have hrender : ip6ToString v = some (joinSep ':' (ws.map (natToBase 16))) := by
    rw [ip6ToString, if_pos hlen, hws]
    rfl
  refine ⟨joinSep ':' (ws.map (natToBase 16)), ?_, ?_, ?_⟩
  · rw [addrToString]
    norm_num
    exact hrender
  · intro hmem
    rcases mem_joinSep hmem with h1 | ⟨p, hp, hcp⟩
    · exact absurd h1 (by decide)
    · rcases List.mem_map.mp hp with ⟨w, _, rfl⟩
      exact absurd rfl (mem_natToBase_ne_slash 16 w (by omega) (by omega) hcp)
  · rw [addrToBytes]
    norm_num
    exact ip6_roundtrip hv hlen hrender

theorem hex_branch {v : List Nat} (hv : ∀ b ∈ v, b < 256) :
    ∃ vs, addrToString 421 v = some vs ∧ '/' ∉ vs ∧ addrToBytes 421 vs = some v := by
  refine ⟨bytesToHex v, ?_, ?_, ?_⟩
  · rw [addrToString]
    norm_num
  · exact fun hmem => absurd rfl (mem_bytesToHex_ne_slash hv hmem)
  · rw [addrToBytes]
    norm_num
    exact hexToBytes_bytesToHex v hv

theorem tupOK_dest {c : Nat} {v : List Nat} (h : tupOK (c, v) = true) :
    ∃ p, protocols c = some p ∧ (∀ b ∈ v, b < 256) ∧
      (if p.size > 0 then v.length = p.size.toNat / 8
       else if p.size = 0 then v = [] else True) := by
  rw [tupOK] at h
  cases hp : protocols c with
  | none => rw [hp] at h; simp at h
  | some p =>
    rw [hp] at h
    simp only [Bool.and_eq_true] at h
    refine ⟨p, rfl, ?_, ?_⟩
    · intro b hb
      have := h.1
      rw [List.all_eq_true] at this
      simpa using this b hb
    · have h2 := h.2
      by_cases hgt : p.size > 0
      · rw [if_pos hgt] at h2 ⊢
        simpa using h2
      · rw [if_neg hgt] at h2 ⊢
        by_cases h0 : p.size = 0
        · rw [if_pos h0] at h2 ⊢
          simpa using h2
        · rw [if_neg h0]
          trivial

/-- The segment-level behaviour of a well-formed tuple: the registry
resolves it, and the rendered segments parse back to the raw value. -/
theorem tupSegs_cases {c : Nat} {v : List Nat} (h : tupOK (c, v) = true) :
    ∃ p, protocols c = some p ∧ p.code = c ∧
      ((p.size = 0 ∧ v = [] ∧ tupSegs (c, v) = some [p.name]) ∨
       (p.size ≠ 0 ∧ ∃ vs, tupSegs (c, v) = some [p.name, vs] ∧ '/' ∉ vs ∧
          addrToBytes c vs = some v)) := by
  obtain ⟨p, hp, hv, hsz⟩ := tupOK_dest h
  obtain ⟨hm, hcode⟩ := protocols_mem hp
  refine ⟨p, hp, hcode, ?_⟩
  have hsegs : tupSegs (c, v) =
      (if p.size = 0 then some [p.name] else (addrToString c v).map (fun s => [p.name, s])) := by
    rw [tupSegs]
    simp only [hp]
  fin_cases hm
  all_goals (first
    | -- flag protocols: size 0
      (refine Or.inl ⟨rfl, ?_, ?_⟩
       · simpa using hsz
       · rw [hsegs]; rfl)
    | skip)
  -- remaining: ip4 (code 4, size 32)
  case _ =>
    subst hcode
    refine Or.inr ⟨by decide, ?_⟩
    obtain ⟨vs, h1, h2, h3⟩ := ip4_branch hv (by simpa using hsz)
    exact ⟨vs, by rw [hsegs, h1]; rfl, h2, h3⟩
  -- tcp
  case _ =>
    subst hcode
    refine Or.inr ⟨by decide, ?_⟩
    obtain ⟨vs, h1, h2, h3⟩ := @port_branch 6 (by decide) v hv (by simpa using hsz)
    exact ⟨vs, by rw [hsegs, h1]; rfl, h2, h3⟩
  -- udp
  case _ =>
    subst hcode
    refine Or.inr ⟨by decide, ?_⟩
    obtain ⟨vs, h1, h2, h3⟩ := @port_branch 17 (by decide) v hv (by simpa using hsz)
    exact ⟨vs, by rw [hsegs, h1]; rfl, h2, h3⟩
  -- dccp
  case _ =>
    subst hcode
    refine Or.inr ⟨by decide, ?_⟩
    obtain ⟨vs, h1, h2, h3⟩ := @port_branch 33 (by decide) v hv (by simpa using hsz)
    exact ⟨vs, by rw [hsegs, h1]; rfl, h2, h3⟩
  -- ip6
  case _ =>
    subst hcode
    refine Or.inr ⟨by decide, ?_⟩
    obtain ⟨vs, h1, h2, h3⟩ := ip6_branch hv (by simpa using hsz)
    exact ⟨vs, by rw [hsegs, h1]; rfl, h2, h3⟩
  -- sctp
  case _ =>
    subst hcode
    refine Or.inr ⟨by decide, ?_⟩
    obtain ⟨vs, h1, h2, h3⟩ := @port_branch 132 (by decide) v hv (by simpa using hsz)
    exact ⟨vs, by rw [hsegs, h1]; rfl, h2, h3⟩
  -- ipfs
  case _ =>
    subst hcode
    refine Or.inr ⟨by decide, ?_⟩
    obtain ⟨vs, h1, h2, h3⟩ := hex_branch hv
    exact ⟨vs, by rw [hsegs, h1]; rfl, h2, h3⟩

/-! ### Buffer-level roundtrip: the tuple walk inverts serialization -/

theorem tuplesToBuffer_cons (t : Nat × List Nat) (ts : List (Nat × List Nat)) :
    tuplesToBuffer (t :: ts) = tupToBuffer t ++ tuplesToBuffer ts := by
  rw [tuplesToBuffer, tuplesToBuffer, List.map_cons, List.flatten_cons]

theorem bufferToTuplesGo_serialize (ts : List (Nat × List Nat)) :
    ∀ fuel, tuplesOK ts = true → ts.length ≤ fuel →
      bufferToTuplesGo fuel (tuplesToBuffer ts) = some ts := by
  induction ts with
  | nil =>
    intro fuel _ _
    show bufferToTuplesGo fuel [] = some []
    cases fuel <;> rfl
  | cons t ts ih =>
    obtain ⟨c, v⟩ := t
    intro fuel hok hfuel
    rw [tuplesOK, List.all_cons, Bool.and_eq_true] at hok
    obtain ⟨htok, hts⟩ := hok
    obtain ⟨p, hp, hv, hsz⟩ := tupOK_dest htok
    cases fuel with
    | zero => simp at hfuel
    | succ f =>
      have hf : ts.length ≤ f := by
        simp only [List.length_cons] at hfuel
        omega
      have ihf := ih f hts hf
      rw [tuplesToBuffer_cons]
      rw [show tupToBuffer (c, v) = varintEncode c
        ++ ((if p.size < 0 then varintEncode v.length else []) ++ v) from by
          rw [tupToBuffer]
          simp only [hp, List.append_assoc]]
      obtain ⟨e0, etl, he⟩ : ∃ e0 etl, varintEncode c = e0 :: etl := by
        cases hev : varintEncode c with
        | nil => exact absurd hev (varintEncode_ne_nil c)
        | cons x y => exact ⟨x, y, rfl⟩
      rw [List.append_assoc, he, List.cons_append]
      rw [bufferToTuplesGo]
      on_goal 2 => simp
      rw [show e0 :: (etl ++ (((if p.size < 0 then varintEncode v.length else []) ++ v)
            ++ tuplesToBuffer ts))
          = varintEncode c ++ (((if p.size < 0 then varintEncode v.length else []) ++ v)
            ++ tuplesToBuffer ts) from by rw [he, List.cons_append]]
      rw [varintDecode_encode]
      simp only [hp]
      rw [List.drop_left]
      by_cases h0 : p.size = 0
      · have hveq : v = [] := by
          rw [if_neg (by omega), if_pos h0] at hsz
          exact hsz
        subst hveq
        rw [if_pos h0, if_neg (by omega : ¬ p.size < 0)]
        simp only [List.nil_append]
        rw [ihf]
        rfl
      · by_cases hgt : p.size > 0
        · have hlen : v.length = p.size.toNat / 8 := by
            rw [if_pos hgt] at hsz
            exact hsz
          rw [if_neg h0, if_pos hgt, if_neg (by omega : ¬ p.size < 0)]
          simp only [List.nil_append]
          have hwle : ¬ (v ++ tuplesToBuffer ts).length < p.size.toNat / 8 := by
            rw [List.length_append]
            omega
          rw [if_neg hwle, ← hlen, List.take_left, List.drop_left, ihf]
          rfl
        · have hneg : p.size < 0 := by omega
          rw [if_neg h0, if_neg hgt, if_pos hneg, List.append_assoc]
          simp only [varintDecode_encode]
          have hle : ¬ (varintEncode v.length ++ (v ++ tuplesToBuffer ts)).length
              < (varintEncode v.length).length + v.length := by
            simp only [List.length_append]
            omega
          rw [if_neg hle, List.drop_left, List.take_left, List.drop_left, ihf]
          rfl

/-- The tuple-list length never exceeds the byte length of its serialization. -/
theorem tuplesToBuffer_length (ts : List (Nat × List Nat)) (h : tuplesOK ts = true) :
    ts.length ≤ (tuplesToBuffer ts).length := by
  induction ts with
  | nil => simp [tuplesToBuffer]
  | cons t ts ih =>
    rw [tuplesOK, List.all_cons, Bool.and_eq_true] at h
    obtain ⟨htok, hts⟩ := h
    obtain ⟨c, v⟩ := t
    obtain ⟨p, hp, _, _⟩ := tupOK_dest htok
    rw [tuplesToBuffer_cons, List.length_append, List.length_cons]
    have h1 : 0 < (tupToBuffer (c, v)).length := by
      rw [tupToBuffer]
      simp only [hp, List.length_append]
      have := varintEncode_length_pos c
      omega
    have := ih hts
    omega

/-- Parsing inverts serialization on well-formed tuple lists. -/
theorem bufferToTuples_serialize {ts : List (Nat × List Nat)} (h : tuplesOK ts = true) :
    bufferToTuples (tuplesToBuffer ts) = some ts := by
  rw [bufferToTuples]
  exact bufferToTuplesGo_serialize ts _ h
    (le_trans (tuplesToBuffer_length ts h) (by omega))

/-- The `protoCodes` loop of the wrapper recovers the codes of a
serialized tuple list. -/
theorem protoCodesGo_serialize (ts : List (Nat × List Nat)) :
    ∀ fuel, tuplesOK ts = true → ts.length ≤ fuel →
      protoCodesGo fuel (tuplesToBuffer ts) = some (ts.map Prod.fst) := by
  induction ts with
  | nil =>
    intro fuel _ _
    show protoCodesGo fuel [] = some []
    cases fuel <;> rfl
  | cons t ts ih =>
    obtain ⟨c, v⟩ := t
    intro fuel hok hfuel
    rw [tuplesOK, List.all_cons, Bool.and_eq_true] at hok
    obtain ⟨htok, hts⟩ := hok
    obtain ⟨p, hp, hv, hsz⟩ := tupOK_dest htok
    cases fuel with
    | zero => simp at hfuel
    | succ f =>
      have hf : ts.length ≤ f := by
        simp only [List.length_cons] at hfuel
        omega
      have ihf := ih f hts hf
      rw [tuplesToBuffer_cons]
      rw [show tupToBuffer (c, v) = varintEncode c
        ++ ((if p.size < 0 then varintEncode v.length else []) ++ v) from by
          rw [tupToBuffer]
          simp only [hp, List.append_assoc]]
      obtain ⟨e0, etl, he⟩ : ∃ e0 etl, varintEncode c = e0 :: etl := by
        cases hev : varintEncode c with
        | nil => exact absurd hev (varintEncode_ne_nil c)
        | cons x y => exact ⟨x, y, rfl⟩
      rw [List.append_assoc, he, List.cons_append]
      rw [protoCodesGo]
      on_goal 2 => simp
      rw [show e0 :: (etl ++ (((if p.size < 0 then varintEncode v.length else []) ++ v)
            ++ tuplesToBuffer ts))
          = varintEncode c ++ (((if p.size < 0 then varintEncode v.length else []) ++ v)
            ++ tuplesToBuffer ts) from by rw [he, List.cons_append]]
      rw [varintDecode_encode]
      simp only [hp]
      rw [List.drop_left, sizeForAddr]
      by_cases hgt : p.size > 0
      · have hlen : v.length = p.size.toNat / 8 := by
          rw [if_pos hgt] at hsz
          exact hsz
        rw [if_pos hgt, if_neg (by omega : ¬ p.size < 0)]
        simp only [List.nil_append]
        rw [← hlen, List.drop_left, ihf]
        rfl
      · by_cases h0 : p.size = 0
        · have hveq : v = [] := by
            rw [if_neg hgt, if_pos h0] at hsz
            exact hsz
          subst hveq
          rw [if_neg hgt, if_pos h0, if_neg (by omega : ¬ p.size < 0)]
          simp only [List.nil_append, List.drop_zero]
          rw [ihf]
          rfl
        · have hneg : p.size < 0 := by omega
          rw [if_neg hgt, if_neg h0, if_pos hneg, List.append_assoc]
          simp only [varintDecode_encode]
          have hle : (varintEncode v.length).length + v.length
              ≤ (varintEncode v.length ++ (v ++ tuplesToBuffer ts)).length := by
            simp only [List.length_append]
            omega
          rw [if_pos hle]
          have hdrop : (varintEncode v.length ++ (v ++ tuplesToBuffer ts)).drop
              ((varintEncode v.length).length + v.length) = tuplesToBuffer ts := by
            rw [List.drop_append, List.drop_left]
          simp only [hdrop, ihf, Option.map_some]
          rfl

/-! ### String-level roundtrip: parsing inverts rendering -/

theorem renderSegs_cons (x : List Char) (r : List (List Char)) :
    renderSegs (x :: r) = ('/' :: x) ++ renderSegs r := by
  rw [renderSegs, renderSegs, List.map_cons, List.flatten_cons]

theorem renderSegs_eq_joinSep (segs : List (List Char)) (h : segs ≠ []) :
    renderSegs segs = '/' :: joinSep '/' segs := by
  induction segs with
  | nil => exact absurd rfl h
  | cons x r ih =>
    cases r with
    | nil =>
      rw [renderSegs, joinSep]
      simp
    | cons y q =>
      rw [renderSegs_cons, ih (by simp), joinSep]
      simp

/-- Segment-level roundtrip with the structural facts needed at the top
level: the rendered segments are slash-free, the first segment is a
non-empty protocol name, and the walk parses them back. -/
theorem tuplesSegs_spec (ts : List (Nat × List Nat)) (h : tuplesOK ts = true) :
    ∃ segs, tuplesSegs ts = some segs ∧ (∀ seg ∈ segs, '/' ∉ seg) ∧
      segsToTuples segs = .ok ts ∧
      ((ts = [] ∧ segs = []) ∨ (∃ nm r, segs = nm :: r ∧ nm ≠ [])) := by
  induction ts with
  | nil => exact ⟨[], rfl, by simp, rfl, Or.inl ⟨rfl, rfl⟩⟩
  | cons t ts ih =>
    obtain ⟨c, v⟩ := t
    rw [tuplesOK, List.all_cons, Bool.and_eq_true] at h
    obtain ⟨htok, hts⟩ := h
    obtain ⟨segs', hsegs', hfree', hwalk', _⟩ := ih hts
    obtain ⟨p, hp, hcode, hcases⟩ := tupSegs_cases htok
    have hname := protocolsByName_name hp
    have hnm_ne := protocols_name_ne_nil hp
    have hnm_free := protocols_name_no_slash hp
    rcases hcases with ⟨hsz0, hveq, htseg⟩ | ⟨hszne, vs, htseg, hvsfree, hback⟩
    · refine ⟨[p.name] ++ segs', ?_, ?_, ?_, Or.inr ⟨p.name, segs', rfl, hnm_ne⟩⟩
      · rw [tuplesSegs, htseg, hsegs']
      · intro seg hseg
        rcases List.mem_append.mp hseg with h1 | h2
        · simp only [List.mem_singleton] at h1
          exact h1 ▸ hnm_free
        · exact hfree' seg h2
      · show segsToTuples (p.name :: segs') = .ok ((c, v) :: ts)
        rw [segsToTuples, hname]
        simp only [if_pos hsz0]
        rw [hwalk']
        subst hveq
        rw [show p.code = c from hcode]
        rfl
    · refine ⟨[p.name, vs] ++ segs', ?_, ?_, ?_, Or.inr ⟨p.name, vs :: segs', rfl, hnm_ne⟩⟩
      · rw [tuplesSegs, htseg, hsegs']
      · intro seg hseg
        rcases List.mem_append.mp hseg with h1 | h2
        · rcases List.mem_cons.mp h1 with h3 | h4
          · exact h3 ▸ hnm_free
          · simp only [List.mem_singleton] at h4
            subst h4
            intro hcon
            exact hvsfree hcon
        · exact hfree' seg h2
      · show segsToTuples (p.name :: vs :: segs') = .ok ((c, v) :: ts)
        rw [segsToTuples, hname]
        simp only [if_neg hszne]
        rw [show p.code = c from hcode, hback, hwalk']
        rfl

/-- Parsing by `fromString` inverts the canonical rendering of a well-formed tuple
list, recovering the canonical bytes. -/
theorem fromString_tuplesToString {ts : List (Nat × List Nat)} (h : tuplesOK ts = true)
    {s : List Char} (hs : tuplesToString ts = some s) :
    fromString s = .ok (tuplesToBuffer ts) := by
  obtain ⟨segs, hsegs, hfree, hwalk, hshape⟩ := tuplesSegs_spec ts h
  rw [tuplesToString, hsegs] at hs
  have hsr : s = renderSegs segs := by simpa using hs.symm
  rcases hshape with ⟨hts, hsegs0⟩ | ⟨nm, r, hcons, hnm⟩
  · subst hts
    subst hsegs0
    have : s = [] := by simp [hsr, renderSegs]
    rw [this, fromString]
    rfl
  · have hne : segs ≠ [] := by
      rw [hcons]
      simp
    rw [hsr, renderSegs_eq_joinSep segs hne]
    have hjne : joinSep '/' segs ≠ [] := by
      rw [hcons]
      cases r with
      | nil =>
        rw [joinSep]
        exact hnm
      | cons y q =>
        rw [joinSep]
        intro hcon
        rcases List.append_eq_nil.mp hcon with ⟨h1, h2⟩
        exact absurd h2 (by simp)
    rw [fromString, if_pos rfl, if_neg hjne]
    rw [splitChar_joinSep '/' segs hne hfree, hwalk]
    rfl

/-! ### Glue facts about the wrapper -/

/-- A syntactically valid canonical multiaddr string: the rendering of
some well-formed tuple list. -/
def CanonicalStr (s : List Char) : Prop :=
  ∃ ts, tuplesOK ts = true ∧ tuplesToString ts = some s

theorem mkMultiaddr_str (s : List Char) :
    mkMultiaddr (.str s) = (fromString s).map Multiaddr.mk := by
  cases s <;> rfl

theorem bufferToString_serialize {ts : List (Nat × List Nat)} (h : tuplesOK ts = true) :
    bufferToString (tuplesToBuffer ts) = tuplesToString ts := by
  rw [bufferToString, bufferToTuples_serialize h]
  rfl

theorem tuplesToString_total {ts : List (Nat × List Nat)} (h : tuplesOK ts = true) :
    ∃ s, tuplesToString ts = some s := by
  obtain ⟨segs, hsegs, _, _, _⟩ := tuplesSegs_spec ts h
  exact ⟨renderSegs segs, by rw [tuplesToString, hsegs]; rfl⟩

/-- Claim C1: for every syntactically valid canonical multiaddr string `s`,
constructing the address from `s` succeeds and rendering it back returns
`s` exactly. -/
theorem claim_c1_roundtrip {s : List Char} (h : CanonicalStr s) :
    ∃ m : Multiaddr, mkMultiaddr (.str s) = .ok m ∧ Multiaddr.toString m = some s := by
  obtain ⟨ts, hok, hts⟩ := h
  refine ⟨⟨tuplesToBuffer ts⟩, ?_, ?_⟩
  · rw [mkMultiaddr_str, fromString_tuplesToString hok hts]
    rfl
  · rw [Multiaddr.toString]
    show bufferToString (tuplesToBuffer ts) = some s
    rw [bufferToString_serialize hok, hts]

/-- Witness for C1 at the concrete string `/ip4/127.0.0.1/tcp/4001`. -/
theorem claim_c1_roundtrip_witness :
    ∃ m : Multiaddr, mkMultiaddr (.str ("/ip4/127.0.0.1/tcp/4001".toList)) = .ok m ∧
      Multiaddr.toString m = some ("/ip4/127.0.0.1/tcp/4001".toList) :=
  claim_c1_roundtrip ⟨[(4, [127, 0, 0, 1]), (6, [15, 161])], by decide, by decide⟩

theorem toStringE_serialize {ts : List (Nat × List Nat)} (h : tuplesOK ts = true)
    {s : List Char} (hs : tuplesToString ts = some s) :
    toStringE ⟨tuplesToBuffer ts⟩ = .ok s := by
  rw [toStringE]
  show (match bufferToString (tuplesToBuffer ts) with
    | some s => Except.ok s
    | none => Except.error MError.invalidAddress) = Except.ok s
  rw [bufferToString_serialize h, hs]

theorem tuplesOK_append {ta tb : List (Nat × List Nat)} (ha : tuplesOK ta = true)
    (hb : tuplesOK tb = true) : tuplesOK (ta ++ tb) = true := by
  rw [tuplesOK, List.all_append]
  rw [tuplesOK] at ha hb
  rw [ha, hb]
  rfl

theorem tuplesToBuffer_append (ta tb : List (Nat × List Nat)) :
    tuplesToBuffer (ta ++ tb) = tuplesToBuffer ta ++ tuplesToBuffer tb := by
  rw [tuplesToBuffer, tuplesToBuffer, tuplesToBuffer, List.map_append, List.flatten_append]

theorem tuplesSegs_append {ta tb : List (Nat × List Nat)} {a b : List (List Char)}
    (ha : tuplesSegs ta = some a) (hb : tuplesSegs tb = some b) :
    tuplesSegs (ta ++ tb) = some (a ++ b) := by
  induction ta generalizing a with
  | nil =>
    have : a = [] := by
      rw [tuplesSegs] at ha
      simpa using ha.symm
    subst this
    simpa using hb
  | cons t ta ih =>
    rw [tuplesSegs] at ha
    cases hts : tupSegs t with
    | none => rw [hts] at ha; simp at ha
    | some x =>
      rw [hts] at ha
      cases hta : tuplesSegs ta with
      | none => rw [hta] at ha; simp at ha
      | some y =>
        rw [hta] at ha
        have haxy : a = x ++ y := by simpa using ha.symm
        subst haxy
        show tuplesSegs (t :: (ta ++ tb)) = some ((x ++ y) ++ b)
        rw [tuplesSegs, hts, ih hta]
        simp

theorem renderSegs_append (a b : List (List Char)) :
    renderSegs (a ++ b) = renderSegs a ++ renderSegs b := by
  rw [renderSegs, renderSegs, renderSegs, List.map_append, List.flatten_append]

theorem tuplesToString_append {ta tb : List (Nat × List Nat)} {s1 s2 : List Char}
    (h1 : tuplesToString ta = some s1) (h2 : tuplesToString tb = some s2) :
    tuplesToString (ta ++ tb) = some (s1 ++ s2) := by
  rw [tuplesToString] at h1 h2 ⊢
  cases ha : tuplesSegs ta with
  | none => rw [ha] at h1; simp at h1
  | some a =>
    cases hb : tuplesSegs tb with
    | none => rw [hb] at h2; simp at h2
    | some b =>
      rw [ha] at h1
      rw [hb] at h2
      rw [tuplesSegs_append ha hb]
      have e1 : renderSegs a = s1 := by simpa using h1
      have e2 : renderSegs b = s2 := by simpa using h2
      simp [renderSegs_append, e1, e2]

theorem fromBuffer_serialize {ts : List (Nat × List Nat)} (h : tuplesOK ts = true) :
    fromBuffer (tuplesToBuffer ts) = .ok (tuplesToBuffer ts) := by
  rw [fromBuffer, bufferToTuples_serialize h]

/-- The encapsulation of two serialized well-formed tuple lists succeeds
and is the serialization of the appended lists. -/
theorem encapsulate_serialize {ta tb : List (Nat × List Nat)} (ha : tuplesOK ta = true)
    (hb : tuplesOK tb = true) :
    Multiaddr.encapsulate ⟨tuplesToBuffer ta⟩ ⟨tuplesToBuffer tb⟩
      = .ok ⟨tuplesToBuffer (ta ++ tb)⟩ := by
  obtain ⟨s1, hs1⟩ := tuplesToString_total ha
  obtain ⟨s2, hs2⟩ := tuplesToString_total hb
  rw [Multiaddr.encapsulate]
  have hma : mkMultiaddr (.ma ⟨tuplesToBuffer tb⟩) = .ok ⟨tuplesToBuffer tb⟩ := by
    rw [mkMultiaddr]
    show (fromBuffer (tuplesToBuffer tb)).map Multiaddr.mk = _
    rw [fromBuffer_serialize hb]
    rfl
  rw [hma]
  show (do
    let s1 ← toStringE ⟨tuplesToBuffer ta⟩
    let s2 ← toStringE ⟨tuplesToBuffer tb⟩
    mkMultiaddr (.str (s1 ++ s2))) = _
  rw [toStringE_serialize ha hs1, toStringE_serialize hb hs2]
  show mkMultiaddr (.str (s1 ++ s2)) = _
  rw [mkMultiaddr_str,
    fromString_tuplesToString (tuplesOK_append ha hb) (tuplesToString_append hs1 hs2)]
  rfl

/-- Claim C4: encapsulation of two valid addresses always succeeds, its
canonical string is the concatenation of the two canonical strings, and
its tuple sequence appends the inner tuples after the outer ones. -/
theorem claim_c4_encapsulate {ta tb : List (Nat × List Nat)} (ha : tuplesOK ta = true)
    (hb : tuplesOK tb = true) {s1 s2 : List Char}
    (hs1 : Multiaddr.toString ⟨tuplesToBuffer ta⟩ = some s1)
    (hs2 : Multiaddr.toString ⟨tuplesToBuffer tb⟩ = some s2) :
    ∃ m : Multiaddr, Multiaddr.encapsulate ⟨tuplesToBuffer ta⟩ ⟨tuplesToBuffer tb⟩ = .ok m ∧
      Multiaddr.toString m = some (s1 ++ s2) ∧
      Multiaddr.tuples m = some (ta ++ tb) := by
  rw [Multiaddr.toString] at hs1 hs2
  have h1 : tuplesToString ta = some s1 := by
    rw [← bufferToString_serialize ha]
    exact hs1
  have h2 : tuplesToString tb = some s2 := by
    rw [← bufferToString_serialize hb]
    exact hs2
  refine ⟨⟨tuplesToBuffer (ta ++ tb)⟩, encapsulate_serialize ha hb, ?_, ?_⟩
  · rw [Multiaddr.toString]
    show bufferToString (tuplesToBuffer (ta ++ tb)) = some (s1 ++ s2)
    rw [bufferToString_serialize (tuplesOK_append ha hb), tuplesToString_append h1 h2]
  · rw [Multiaddr.tuples]
    exact bufferToTuples_serialize (tuplesOK_append ha hb)

/-- Witness for C4: `/ip4/8.8.8.8/tcp/1080` encapsulating
`/ip4/127.0.0.1/tcp/4001`. -/
theorem claim_c4_encapsulate_witness :
    ∃ m : Multiaddr,
      Multiaddr.encapsulate ⟨tuplesToBuffer [(4, [8, 8, 8, 8]), (6, [4, 56])]⟩
        ⟨tuplesToBuffer [(4, [127, 0, 0, 1]), (6, [15, 161])]⟩ = .ok m ∧
      Multiaddr.toString m
        = some ("/ip4/8.8.8.8/tcp/1080".toList ++ "/ip4/127.0.0.1/tcp/4001".toList) ∧
      Multiaddr.tuples m
        = some ([(4, [8, 8, 8, 8]), (6, [4, 56])] ++ [(4, [127, 0, 0, 1]), (6, [15, 161])]) :=
  claim_c4_encapsulate (by decide) (by decide) (by decide) (by decide)

/-! ### Properties of the JS string search -/

/-- The suffix string occurs somewhere in the target string. -/
def containsSub (s pat : List Char) : Prop :=
  ∃ i, i ≤ s.length ∧ matchAt s pat i = true

instance (s pat : List Char) : Decidable (containsSub s pat) := by
  unfold containsSub
  infer_instance

theorem lastIndexAux_spec (s pat : List Char) (j : Nat) (hj : matchAt s pat j = true) :
    ∀ i, j ≤ i → (∀ k, j < k → k ≤ i → matchAt s pat k = false) →
    lastIndexAux s pat i = some j := by
  intro i
  induction i with
  | zero =>
    intro hji _
    have : j = 0 := by omega
    subst this
    rw [lastIndexAux, if_pos hj]
  | succ n ih =>
    intro hji hk
    by_cases he : j = n + 1
    · subst he
      rw [lastIndexAux, if_pos hj]
    · have hfalse : matchAt s pat (n + 1) = false := hk (n + 1) (by omega) (by omega)
      rw [lastIndexAux, hfalse]
      simp only [Bool.false_eq_true, if_false]
      exact ih (by omega) (fun k h1 h2 => hk k h1 (by omega))

theorem lastIndexAux_none (s pat : List Char) :
    ∀ i, lastIndexAux s pat i = none ↔ (∀ k, k ≤ i → matchAt s pat k = false) := by
  intro i
  induction i with
  | zero =>
    rw [lastIndexAux]
    by_cases h : matchAt s pat 0 = true
    · simp [h]
    · constructor
      · intro _ k hk
        have : k = 0 := by omega
        subst this
        simpa using h
      · intro _
        simp [h]
  | succ n ih =>
    rw [lastIndexAux]
    by_cases h : matchAt s pat (n + 1) = true
    · rw [if_pos h]
      constructor
      · intro hcon
        exact absurd hcon (by simp)
      · intro hall
        have := hall (n + 1) (by omega)
        rw [h] at this
        exact absurd this (by simp)
    · have hf : matchAt s pat (n + 1) = false := by
        cases hmm : matchAt s pat (n + 1)
        · rfl
        · exact absurd hmm h
      rw [hf]
      simp only [Bool.false_eq_true, if_false]
      rw [ih]
      constructor
      · intro hall k hk
        by_cases hke : k = n + 1
        · subst hke
          exact hf
        · exact hall k (by omega)
      · intro hall k hk
        exact hall k (by omega)

theorem lastIndexAux_some (s pat : List Char) :
    ∀ i j, lastIndexAux s pat i = some j →
      matchAt s pat j = true ∧ j ≤ i ∧ ∀ k, k ≤ i → matchAt s pat k = true → k ≤ j := by
  intro i
  induction i with
  | zero =>
    intro j hj
    rw [lastIndexAux] at hj
    by_cases h : matchAt s pat 0 = true
    · rw [if_pos h] at hj
      have : j = 0 := by simpa using hj.symm
      subst this
      exact ⟨h, le_refl 0, fun k hk _ => hk⟩
    · rw [if_neg h] at hj
      exact absurd hj (by simp)
  | succ n ih =>
    intro j hj
    rw [lastIndexAux] at hj
    by_cases h : matchAt s pat (n + 1) = true
    · rw [if_pos h] at hj
      have : j = n + 1 := by simpa using hj.symm
      subst this
      exact ⟨h, le_refl _, fun k hk _ => hk⟩
    · rw [if_neg h] at hj
      obtain ⟨h1, h2, h3⟩ := ih j hj
      refine ⟨h1, by omega, ?_⟩
      intro k hk hmk
      by_cases hke : k = n + 1
      · subst hke
        exact absurd hmk h
      · exact h3 k (by omega) hmk

theorem matchAt_append_self (a pat : List Char) :
    matchAt (a ++ pat) pat a.length = true := by
  rw [matchAt, List.drop_left, List.take_length]
  simp

theorem matchAt_big_false (a pat : List Char) {k : Nat} (hk : a.length < k)
    (hk2 : k ≤ a.length + pat.length) :
    matchAt (a ++ pat) pat k = false := by
  rw [matchAt]
  apply decide_eq_false
  intro hcon
  have hlen : (((a ++ pat).drop k).take pat.length).length = pat.length := by
    rw [hcon]
  rw [List.length_take, List.length_drop, List.length_append] at hlen
  omega

/-- The last occurrence of `pat` in `a ++ pat` is exactly at `a.length`. -/
theorem lastIndexOf_append_self (a pat : List Char) :
    lastIndexOf (a ++ pat) pat = some a.length := by
  rw [lastIndexOf]
  apply lastIndexAux_spec
  · exact matchAt_append_self a pat
  · rw [List.length_append]
    omega
  · intro k h1 h2
    rw [List.length_append] at h2
    exact matchAt_big_false a pat h1 h2

theorem segsToTuples_ne_notContained_aux :
    ∀ n segs, segs.length ≤ n → segsToTuples segs ≠ .error .notContained := by
  intro n
  induction n with
  | zero =>
    intro segs hlen
    have : segs = [] := by
      cases segs with
      | nil => rfl
      | cons a b => simp at hlen
    subst this
    simp [segsToTuples]
  | succ n ih =>
    intro segs hlen
    cases segs with
    | nil => simp [segsToTuples]
    | cons name rest =>
      rw [segsToTuples]
      cases protocolsByName name with
      | none => simp
      | some p =>
        by_cases h0 : p.size = 0
        · simp only [if_pos h0]
          cases hr : segsToTuples rest with
          | ok ts => simp [Except.map]
          | error e =>
            intro hcon
            have he : e = MError.notContained := by
              simpa [Except.map] using hcon
            apply ih rest (by simp only [List.length_cons] at hlen; omega)
            rw [hr, he]
        · simp only [if_neg h0]
          cases rest with
          | nil => simp
          | cons v rest2 =>
            cases hab : addrToBytes p.code v with
            | none => simp [hab]
            | some bytes =>
              cases hr : segsToTuples rest2 with
              | ok ts => simp [hab, hr, Except.map]
              | error e =>
                simp only [hab, hr]
                intro hcon
                have he : e = MError.notContained := by
                  simpa [Except.map] using hcon
                apply ih rest2 (by simp only [List.length_cons] at hlen; omega)
                rw [hr, he]

theorem segsToTuples_ne_notContained (segs : List (List Char)) :
    segsToTuples segs ≠ .error .notContained :=
  segsToTuples_ne_notContained_aux segs.length segs (le_refl _)

theorem fromString_ne_notContained (s : List Char) :
    (fromString s).map Multiaddr.mk ≠ .error .notContained := by
  cases s with
  | nil => simp [fromString, Except.map]
  | cons c rest =>
    rw [fromString]
    by_cases hc : c = '/'
    · rw [if_pos hc]
      by_cases hr : rest = []
      · rw [if_pos hr]
        simp [Except.map]
      · rw [if_neg hr]
        cases hw : segsToTuples (splitChar '/' rest) with
        | ok ts => simp [Except.map]
        | error e =>
          intro hcon
          have he : e = MError.notContained := by
            simpa [Except.map] using hcon
          have := segsToTuples_ne_notContained (splitChar '/' rest)
          rw [hw, he] at this
          exact this rfl
    · rw [if_neg hc]
      simp [Except.map]

/-- Claim C2: decapsulating `B` from `encapsulate(A, B)` gives back an
address equal to `A`, for all valid addresses `A` and `B`. -/
theorem claim_c2_encap_decap {ta tb : List (Nat × List Nat)} (ha : tuplesOK ta = true)
    (hb : tuplesOK tb = true) :
    ∃ enc dec : Multiaddr,
      Multiaddr.encapsulate ⟨tuplesToBuffer ta⟩ ⟨tuplesToBuffer tb⟩ = .ok enc ∧
      Multiaddr.decapsulate enc ⟨tuplesToBuffer tb⟩ = .ok dec ∧
      Multiaddr.equals dec ⟨tuplesToBuffer ta⟩ = true := by
  obtain ⟨s1, hs1⟩ := tuplesToString_total ha
  obtain ⟨s2, hs2⟩ := tuplesToString_total hb
  refine ⟨⟨tuplesToBuffer (ta ++ tb)⟩, ⟨tuplesToBuffer ta⟩,
    encapsulate_serialize ha hb, ?_, ?_⟩
  · rw [Multiaddr.decapsulate, toStringE_serialize hb hs2,
      toStringE_serialize (tuplesOK_append ha hb) (tuplesToString_append hs1 hs2)]
    show (match lastIndexOf (s1 ++ s2) s2 with
      | none => Except.error MError.notContained
      | some i => mkMultiaddr (.str ((s1 ++ s2).take i))) = .ok ⟨tuplesToBuffer ta⟩
    rw [lastIndexOf_append_self s1 s2]
    show mkMultiaddr (.str ((s1 ++ s2).take s1.length)) = .ok ⟨tuplesToBuffer ta⟩
    rw [List.take_left, mkMultiaddr_str, fromString_tuplesToString ha hs1]
    rfl
  · rw [Multiaddr.equals]
    simp

/-- Witness for C2: `/ip4/8.8.8.8/tcp/1080` and `/ip4/127.0.0.1/tcp/4001`. -/
theorem claim_c2_encap_decap_witness :
    ∃ enc dec : Multiaddr,
      Multiaddr.encapsulate ⟨tuplesToBuffer [(4, [8, 8, 8, 8]), (6, [4, 56])]⟩
        ⟨tuplesToBuffer [(4, [127, 0, 0, 1]), (6, [15, 161])]⟩ = .ok enc ∧
      Multiaddr.decapsulate enc ⟨tuplesToBuffer [(4, [127, 0, 0, 1]), (6, [15, 161])]⟩
        = .ok dec ∧
      Multiaddr.equals dec ⟨tuplesToBuffer [(4, [8, 8, 8, 8]), (6, [4, 56])]⟩ = true :=
  claim_c2_encap_decap (by decide) (by decide)

/-- Claim C3: decapsulate works on the rendered strings of the two
addresses: it fails `NotContained` exactly when the suffix string does not
occur in the target string, and otherwise re-parses the prefix strictly
before the last (maximal) occurrence. -/
theorem claim_c3_decapsulate {ta tb : List (Nat × List Nat)} (ha : tuplesOK ta = true)
    (hb : tuplesOK tb = true) {sa sb : List Char}
    (hsa : Multiaddr.toString ⟨tuplesToBuffer ta⟩ = some sa)
    (hsb : Multiaddr.toString ⟨tuplesToBuffer tb⟩ = some sb) :
    (Multiaddr.decapsulate ⟨tuplesToBuffer ta⟩ ⟨tuplesToBuffer tb⟩ = .error .notContained
      ↔ ¬ containsSub sa sb) ∧
    (∀ i, lastIndexOf sa sb = some i →
      matchAt sa sb i = true ∧ (∀ k, k ≤ sa.length → matchAt sa sb k = true → k ≤ i) ∧
      Multiaddr.decapsulate ⟨tuplesToBuffer ta⟩ ⟨tuplesToBuffer tb⟩
        = (fromString (sa.take i)).map Multiaddr.mk) := by
  rw [Multiaddr.toString] at hsa hsb
  have h1 : tuplesToString ta = some sa := by
    rw [← bufferToString_serialize ha]
    exact hsa
  have h2 : tuplesToString tb = some sb := by
    rw [← bufferToString_serialize hb]
    exact hsb
  have hdec : Multiaddr.decapsulate ⟨tuplesToBuffer ta⟩ ⟨tuplesToBuffer tb⟩
      = (match lastIndexOf sa sb with
        | none => Except.error MError.notContained
        | some i => mkMultiaddr (.str (sa.take i))) := by
    rw [Multiaddr.decapsulate, toStringE_serialize hb h2, toStringE_serialize ha h1]
    rfl
  constructor
  · cases hli : lastIndexOf sa sb with
    | none =>
      rw [hdec, hli]
      constructor
      · intro _
        rw [lastIndexOf] at hli
        have hall := (lastIndexAux_none sa sb sa.length).mp hli
        rintro ⟨i, hile, hmi⟩
        have := hall i hile
        rw [hmi] at this
        exact absurd this (by simp)
      · intro _
        rfl
    | some i =>
      rw [hdec, hli]
      obtain ⟨hmi, hile, _⟩ := lastIndexAux_some sa sb sa.length i hli
      constructor
      · intro hcon
        have hcon2 : mkMultiaddr (JSValue.str (sa.take i)) = .error .notContained := hcon
        rw [mkMultiaddr_str] at hcon2
        exact absurd hcon2 (fromString_ne_notContained _)
      · intro hcon
        exact absurd ⟨i, hile, hmi⟩ hcon
  · intro i hli
    obtain ⟨hmi, hile, hmax⟩ := lastIndexAux_some sa sb sa.length i hli
    refine ⟨hmi, hmax, ?_⟩
    rw [hdec, hli]
    show mkMultiaddr (JSValue.str (sa.take i)) = (fromString (sa.take i)).map Multiaddr.mk
    rw [mkMultiaddr_str]

/-- Witness for C3: `/ip4/8.8.8.8/tcp/1080` and suffix `/udp/5`
(not contained). -/
theorem claim_c3_decapsulate_witness :
    ((Multiaddr.decapsulate ⟨tuplesToBuffer [(4, [8, 8, 8, 8]), (6, [4, 56])]⟩
        ⟨tuplesToBuffer [(17, [0, 5])]⟩ = .error .notContained
      ↔ ¬ containsSub ("/ip4/8.8.8.8/tcp/1080".toList) ("/udp/5".toList)) ∧
    (∀ i, lastIndexOf ("/ip4/8.8.8.8/tcp/1080".toList) ("/udp/5".toList) = some i →
      matchAt ("/ip4/8.8.8.8/tcp/1080".toList) ("/udp/5".toList) i = true ∧
      (∀ k, k ≤ ("/ip4/8.8.8.8/tcp/1080".toList).length →
        matchAt ("/ip4/8.8.8.8/tcp/1080".toList) ("/udp/5".toList) k = true → k ≤ i) ∧
      Multiaddr.decapsulate ⟨tuplesToBuffer [(4, [8, 8, 8, 8]), (6, [4, 56])]⟩
        ⟨tuplesToBuffer [(17, [0, 5])]⟩
        = (fromString (("/ip4/8.8.8.8/tcp/1080".toList).take i)).map Multiaddr.mk)) :=
  claim_c3_decapsulate (by decide) (by decide) (by decide) (by decide)

/-- Claim C5: equality holds exactly on equal canonical byte sequences, is
reflexive and symmetric, and the string path and the binary path to the
same logical address produce equal instances. -/
theorem claim_c5_equality :
    (∀ m1 m2 : Multiaddr, Multiaddr.equals m1 m2 = true ↔ m1.buffer = m2.buffer) ∧
    (∀ m : Multiaddr, Multiaddr.equals m m = true) ∧
    (∀ m1 m2 : Multiaddr, Multiaddr.equals m1 m2 = Multiaddr.equals m2 m1) ∧
    (∀ (ts : List (Nat × List Nat)) (s : List Char), tuplesOK ts = true →
      tuplesToString ts = some s →
      ∃ m1 m2 : Multiaddr, mkMultiaddr (.str s) = .ok m1 ∧
        mkMultiaddr (.buf (tuplesToBuffer ts)) = .ok m2 ∧
        Multiaddr.equals m1 m2 = true) := by
  refine ⟨?_, ?_, ?_, ?_⟩
  · intro m1 m2
    rw [Multiaddr.equals]
    exact decide_eq_true_iff
  · intro m
    rw [Multiaddr.equals]
    simp
  · intro m1 m2
    rw [Multiaddr.equals, Multiaddr.equals]
    by_cases h : m1.buffer = m2.buffer
    · rw [h]
    · rw [decide_eq_false h, decide_eq_false (fun hcon => h hcon.symm)]
  · intro ts s hok hts
    refine ⟨⟨tuplesToBuffer ts⟩, ⟨tuplesToBuffer ts⟩, ?_, ?_, ?_⟩
    · rw [mkMultiaddr_str, fromString_tuplesToString hok hts]
      rfl
    · have : mkMultiaddr (.buf (tuplesToBuffer ts))
          = (fromBuffer (tuplesToBuffer ts)).map Multiaddr.mk := by
        cases hb : tuplesToBuffer ts with
        | nil => rfl
        | cons x y => rfl
      rw [this, fromBuffer_serialize hok]
      rfl
    · rw [Multiaddr.equals]
      simp

/-- Witness for C5: the string and binary paths for
`/ip4/127.0.0.1/tcp/4001`. -/
theorem claim_c5_equality_witness :
    ∃ m1 m2 : Multiaddr,
      mkMultiaddr (.str ("/ip4/127.0.0.1/tcp/4001".toList)) = .ok m1 ∧
      mkMultiaddr (.buf (tuplesToBuffer [(4, [127, 0, 0, 1]), (6, [15, 161])])) = .ok m2 ∧
      Multiaddr.equals m1 m2 = true :=
  claim_c5_equality.2.2.2 [(4, [127, 0, 0, 1]), (6, [15, 161])]
    ("/ip4/127.0.0.1/tcp/4001".toList) (by decide) (by decide)

/-- Claim C7: the address parsed from `/ip4/127.0.0.1/tcp/4001` has the
exact bytes `04 7f 00 00 01 06 0f a1`, protocol codes `[4, 6]` and
protocol names `["ip4", "tcp"]`. -/
theorem claim_c7_example :
    fromString ("/ip4/127.0.0.1/tcp/4001".toList) = .ok [4, 127, 0, 0, 1, 6, 15, 161] ∧
    ∃ m : Multiaddr, mkMultiaddr (.str ("/ip4/127.0.0.1/tcp/4001".toList)) = .ok m ∧
      m.buffer = [4, 127, 0, 0, 1, 6, 15, 161] ∧
      Multiaddr.protoCodes m = some [4, 6] ∧
      Multiaddr.protoNames m = some ["ip4".toList, "tcp".toList] := by
  refine ⟨by decide, ⟨[4, 127, 0, 0, 1, 6, 15, 161]⟩, by decide, rfl, by decide, by decide⟩

/-- Claim C8: the options view of `/ip4/127.0.0.1/tcp/4001` is exactly
`{family: ipv4, host: 127.0.0.1, transport: tcp, port: 4001}`. -/
theorem claim_c8_toOptions :
    ∃ m : Multiaddr, mkMultiaddr (.str ("/ip4/127.0.0.1/tcp/4001".toList)) = .ok m ∧
      Multiaddr.toOptions m = some ⟨"ipv4".toList, "127.0.0.1".toList,
        "tcp".toList, "4001".toList⟩ := by
  refine ⟨⟨[4, 127, 0, 0, 1, 6, 15, 161]⟩, by decide, by decide⟩

/-- Claim C9: constructing from `undefined`, `null` or the empty string
succeeds with the empty address, equal to the one built from `""`. -/
theorem claim_c9_falsy :
    mkMultiaddr .undef = .ok ⟨[]⟩ ∧
    mkMultiaddr .null = .ok ⟨[]⟩ ∧
    mkMultiaddr (.str ("".toList)) = .ok ⟨[]⟩ ∧
    mkMultiaddr .undef = mkMultiaddr (.str ("".toList)) ∧
    mkMultiaddr .null = mkMultiaddr (.str ("".toList)) := by
  decide

/-! ### Thin-waist predicate and node address -/

theorem protoCodes_serialize {ts : List (Nat × List Nat)} (h : tuplesOK ts = true) :
    Multiaddr.protoCodes ⟨tuplesToBuffer ts⟩ = some (ts.map Prod.fst) := by
  rw [Multiaddr.protoCodes]
  show protoCodesGo ((tuplesToBuffer ts).length + 1) (tuplesToBuffer ts) = _
  exact protoCodesGo_serialize ts _ h
    (le_trans (tuplesToBuffer_length ts h) (by omega))

theorem protosOfCodes_serialize {ts : List (Nat × List Nat)} (h : tuplesOK ts = true) :
    ∃ ps, protosOfCodes (ts.map Prod.fst) = some ps ∧
      ps.map Protocol.code = ts.map Prod.fst := by
  induction ts with
  | nil => exact ⟨[], rfl, rfl⟩
  | cons t ts ih =>
    obtain ⟨c, v⟩ := t
    rw [tuplesOK, List.all_cons, Bool.and_eq_true] at h
    obtain ⟨htok, hts⟩ := h
    obtain ⟨p, hp, _, _⟩ := tupOK_dest htok
    obtain ⟨_, hcode⟩ := protocols_mem hp
    obtain ⟨ps, hps, hpc⟩ := ih hts
    refine ⟨p :: ps, ?_, ?_⟩
    · show protosOfCodes (c :: ts.map Prod.fst) = some (p :: ps)
      rw [protosOfCodes, hp, hps]
      rfl
    · rw [List.map_cons, hpc, hcode]
      rfl

theorem protos_serialize {ts : List (Nat × List Nat)} (h : tuplesOK ts = true) :
    ∃ ps, Multiaddr.protos ⟨tuplesToBuffer ts⟩ = some ps ∧
      ps.map Protocol.code = ts.map Prod.fst := by
  obtain ⟨ps, hps, hpc⟩ := protosOfCodes_serialize h
  refine ⟨ps, ?_, hpc⟩
  rw [Multiaddr.protos, protoCodes_serialize h]
  exact hps

theorem splitChar_renderSegs (segs : List (List Char)) (hne : segs ≠ [])
    (hfree : ∀ seg ∈ segs, '/' ∉ seg) :
    splitChar '/' (renderSegs segs) = [] :: segs := by
  rw [renderSegs_eq_joinSep segs hne, splitChar, if_pos rfl,
    splitChar_joinSep '/' segs hne hfree]

/-- The thin-waist shape: exactly one IP component followed by one
tcp or udp component. -/
def ThinWaistShape (ts : List (Nat × List Nat)) : Prop :=
  ∃ c1 v1 c2 v2, ts = [(c1, v1), (c2, v2)] ∧ (c1 = 4 ∨ c1 = 41) ∧ (c2 = 6 ∨ c2 = 17)

/-- Claim C6: the thin-waist predicate is true exactly on two-component
addresses of one IP protocol followed by tcp or udp; `nodeAddress` fails
exactly otherwise, and on thin-waist addresses it maps the two components
to the address family and the rendered host and port. -/
theorem claim_c6_thinwaist {ts : List (Nat × List Nat)} (h : tuplesOK ts = true) :
    (∃ b, Multiaddr.isThinWaistAddress ⟨tuplesToBuffer ts⟩ = some b ∧
      (b = true ↔ ThinWaistShape ts)) ∧
    ((∃ e, Multiaddr.nodeAddress ⟨tuplesToBuffer ts⟩ = .error e) ↔ ¬ ThinWaistShape ts) ∧
    (∀ c1 v1 c2 v2, ts = [(c1, v1), (c2, v2)] → (c1 = 4 ∨ c1 = 41) → (c2 = 6 ∨ c2 = 17) →
      ∃ s1 s2, addrToString c1 v1 = some s1 ∧ addrToString c2 v2 = some s2 ∧
        Multiaddr.nodeAddress ⟨tuplesToBuffer ts⟩ =
          .ok ⟨(if c1 = 41 then "IPv6".toList else "IPv4".toList), s1, s2⟩) := by
  obtain ⟨ps, hps, hpc⟩ := protos_serialize h
  have hlen : ps.length = ts.length := by
    have := congrArg List.length hpc
    simpa using this
  have htw : Multiaddr.isThinWaistAddress ⟨tuplesToBuffer ts⟩ = some
      (if ps.length ≠ 2 then false
       else if (ps.getD 0 ⟨0, 0, []⟩).code ≠ 4 ∧ (ps.getD 0 ⟨0, 0, []⟩).code ≠ 41 then false
       else if (ps.getD 1 ⟨0, 0, []⟩).code ≠ 6 ∧ (ps.getD 1 ⟨0, 0, []⟩).code ≠ 17 then false
       else true) := by
    rw [Multiaddr.isThinWaistAddress, hps]
    rfl
  have hshape : (if ps.length ≠ 2 then false
       else if (ps.getD 0 ⟨0, 0, []⟩).code ≠ 4 ∧ (ps.getD 0 ⟨0, 0, []⟩).code ≠ 41 then false
       else if (ps.getD 1 ⟨0, 0, []⟩).code ≠ 6 ∧ (ps.getD 1 ⟨0, 0, []⟩).code ≠ 17 then false
       else true) = true ↔ ThinWaistShape ts := by
    by_cases hl2 : ts.length = 2
    · obtain ⟨t1, t2, hts2⟩ : ∃ t1 t2, ts = [t1, t2] := by
        obtain ⟨a, b, hab⟩ := list_len_two hl2
        exact ⟨a, b, hab⟩
      obtain ⟨c1, v1⟩ := t1
      obtain ⟨c2, v2⟩ := t2
      subst hts2
      obtain ⟨p1, p2, hps2⟩ : ∃ p1 p2, ps = [p1, p2] := by
        obtain ⟨a, b, hab⟩ := list_len_two (by omega : ps.length = 2)
        exact ⟨a, b, hab⟩
      subst hps2
      have hc1 : p1.code = c1 := by
        have := hpc
        simp only [List.map_cons, List.map_nil, List.cons.injEq] at this
        exact this.1
      have hc2 : p2.code = c2 := by
        have := hpc
        simp only [List.map_cons, List.map_nil, List.cons.injEq] at this
        exact this.2.1
      rw [if_neg (by simp)]
      simp only [List.getD_cons_zero, List.getD_cons_succ, hc1, hc2]
      constructor
      · intro hb
        by_cases h1 : c1 ≠ 4 ∧ c1 ≠ 41
        · rw [if_pos h1] at hb
          exact absurd hb (by simp)
        · rw [if_neg h1] at hb
          by_cases h2 : c2 ≠ 6 ∧ c2 ≠ 17
          · rw [if_pos h2] at hb
            exact absurd hb (by simp)
          · exact ⟨c1, v1, c2, v2, rfl, by omega, by omega⟩
      · rintro ⟨d1, w1, d2, w2, heq, hd1, hd2⟩
        obtain ⟨he1, he2⟩ : (c1, v1) = (d1, w1) ∧ (c2, v2) = (d2, w2) := by
          rw [List.cons.injEq, List.cons.injEq] at heq
          exact ⟨heq.1, heq.2.1⟩
        have hc1d : c1 = d1 := by rw [Prod.ext_iff] at he1; exact he1.1
        have hc2d : c2 = d2 := by rw [Prod.ext_iff] at he2; exact he2.1
        rw [if_neg (by omega), if_neg (by omega)]
    · rw [if_pos (by omega : ps.length ≠ 2)]
      constructor
      · intro hcon
        exact absurd hcon (by simp)
      · rintro ⟨c1, v1, c2, v2, heq, _, _⟩
        rw [heq] at hl2
        simp at hl2
  refine ⟨⟨_, htw, hshape⟩, ?_, ?_⟩
  · constructor
    · rintro ⟨e, he⟩ hshape2
      rw [Multiaddr.nodeAddress, htw] at he
      rw [← hshape] at hshape2
      rw [hshape2] at he
      obtain ⟨c1, v1, c2, v2, hts2, hc1, hc2⟩ :
          ∃ c1 v1 c2 v2, ts = [(c1, v1), (c2, v2)] ∧ (c1 = 4 ∨ c1 = 41)
            ∧ (c2 = 6 ∨ c2 = 17) := hshape.mp hshape2
      rw [protoCodes_serialize h] at he
      obtain ⟨s, hs⟩ := tuplesToString_total h
      have hbs : Multiaddr.toString ⟨tuplesToBuffer ts⟩ = some s := by
        rw [Multiaddr.toString]
        show bufferToString (tuplesToBuffer ts) = some s
        rw [bufferToString_serialize h, hs]
      rw [hbs] at he
      exact Except.noConfusion he
    · intro hns
      rw [Multiaddr.nodeAddress, htw]
      have : (if ps.length ≠ 2 then false
        else if (ps.getD 0 ⟨0, 0, []⟩).code ≠ 4 ∧ (ps.getD 0 ⟨0, 0, []⟩).code ≠ 41 then false
        else if (ps.getD 1 ⟨0, 0, []⟩).code ≠ 6 ∧ (ps.getD 1 ⟨0, 0, []⟩).code ≠ 17 then false
        else true) = false := by
        cases hbb : (if ps.length ≠ 2 then false
          else if (ps.getD 0 ⟨0, 0, []⟩).code ≠ 4 ∧ (ps.getD 0 ⟨0, 0, []⟩).code ≠ 41 then false
          else if (ps.getD 1 ⟨0, 0, []⟩).code ≠ 6 ∧ (ps.getD 1 ⟨0, 0, []⟩).code ≠ 17 then false
          else true) with
        | false => rfl
        | true => exact absurd (hshape.mp hbb) hns
      rw [this]
      exact ⟨.invalidFormat, rfl⟩
  · intro c1 v1 c2 v2 hts2 hc1 hc2
    subst hts2
    have hok1 : tupOK (c1, v1) = true := by
      rw [tuplesOK, List.all_cons, Bool.and_eq_true] at h
      exact h.1
    have hok2 : tupOK (c2, v2) = true := by
      rw [tuplesOK, List.all_cons, List.all_cons, Bool.and_eq_true, Bool.and_eq_true] at h
      exact h.2.1
    obtain ⟨p1, hp1, hp1c, hcase1⟩ := tupSegs_cases hok1
    obtain ⟨p2, hp2, hp2c, hcase2⟩ := tupSegs_cases hok2
    have hsz1 : p1.size ≠ 0 := by
      rcases hc1 with rfl | rfl
      · have : p1 = ⟨4, 32, "ip4".toList⟩ := by
          have := hp1
          rw [show protocols 4 = some ⟨4, 32, "ip4".toList⟩ from rfl] at this
          exact (Option.some.inj this).symm
        rw [this]
        decide
      · have : p1 = ⟨41, 128, "ip6".toList⟩ := by
          have := hp1
          rw [show protocols 41 = some ⟨41, 128, "ip6".toList⟩ from rfl] at this
          exact (Option.some.inj this).symm
        rw [this]
        decide
    have hsz2 : p2.size ≠ 0 := by
      rcases hc2 with rfl | rfl
      · have : p2 = ⟨6, 16, "tcp".toList⟩ := by
          have := hp2
          rw [show protocols 6 = some ⟨6, 16, "tcp".toList⟩ from rfl] at this
          exact (Option.some.inj this).symm
        rw [this]
        decide
      · have : p2 = ⟨17, 16, "udp".toList⟩ := by
          have := hp2
          rw [show protocols 17 = some ⟨17, 16, "udp".toList⟩ from rfl] at this
          exact (Option.some.inj this).symm
        rw [this]
        decide
    rcases hcase1 with ⟨hcon, _, _⟩ | ⟨_, vs1, hseg1, hfree1, hback1⟩
    · exact absurd hcon hsz1
    rcases hcase2 with ⟨hcon, _, _⟩ | ⟨_, vs2, hseg2, hfree2, hback2⟩
    · exact absurd hcon hsz2
    have hvs1 : addrToString c1 v1 = some vs1 := by
      simp only [tupSegs, hp1] at hseg1
      rw [if_neg hsz1] at hseg1
      cases hat : addrToString c1 v1 with
      | none => rw [hat] at hseg1; exact absurd hseg1 (by simp)
      | some x =>
        rw [hat] at hseg1
        have : [p1.name, x] = [p1.name, vs1] := by simpa using hseg1
        rw [List.cons.injEq] at this
        rw [show x = vs1 from by simpa using this.2]
    have hvs2 : addrToString c2 v2 = some vs2 := by
      simp only [tupSegs, hp2] at hseg2
      rw [if_neg hsz2] at hseg2
      cases hat : addrToString c2 v2 with
      | none => rw [hat] at hseg2; exact absurd hseg2 (by simp)
      | some x =>
        rw [hat] at hseg2
        have : [p2.name, x] = [p2.name, vs2] := by simpa using hseg2
        rw [List.cons.injEq] at this
        rw [show x = vs2 from by simpa using this.2]
    refine ⟨vs1, vs2, hvs1, hvs2, ?_⟩
    have hsegs : tuplesSegs [(c1, v1), (c2, v2)] = some [p1.name, vs1, p2.name, vs2] := by
      rw [tuplesSegs, hseg1, tuplesSegs, hseg2, tuplesSegs]
      rfl
    have hfree : ∀ seg ∈ [p1.name, vs1, p2.name, vs2], '/' ∉ seg := by
      intro seg hseg
      rcases List.mem_cons.mp hseg with rfl | hseg
      · exact protocols_name_no_slash hp1
      rcases List.mem_cons.mp hseg with rfl | hseg
      · exact hfree1
      rcases List.mem_cons.mp hseg with rfl | hseg
      · exact protocols_name_no_slash hp2
      rcases List.mem_cons.mp hseg with rfl | hseg
      · exact hfree2
      · simp at hseg
    have hs : tuplesToString [(c1, v1), (c2, v2)]
        = some (renderSegs [p1.name, vs1, p2.name, vs2]) := by
      rw [tuplesToString, hsegs]
      rfl
    have hbs : bufferToString (tuplesToBuffer [(c1, v1), (c2, v2)])
        = some (renderSegs [p1.name, vs1, p2.name, vs2]) := by
      rw [bufferToString_serialize h, hs]
    have hsplit : splitChar '/' (renderSegs [p1.name, vs1, p2.name, vs2])
        = [] :: [p1.name, vs1, p2.name, vs2] :=
      splitChar_renderSegs _ (by simp) hfree
    rw [Multiaddr.nodeAddress, htw]
    have hbtrue : (if ps.length ≠ 2 then false
        else if (ps.getD 0 ⟨0, 0, []⟩).code ≠ 4 ∧ (ps.getD 0 ⟨0, 0, []⟩).code ≠ 41 then false
        else if (ps.getD 1 ⟨0, 0, []⟩).code ≠ 6 ∧ (ps.getD 1 ⟨0, 0, []⟩).code ≠ 17 then false
        else true) = true :=
      hshape.mpr ⟨c1, v1, c2, v2, rfl, hc1, hc2⟩
    rw [hbtrue, protoCodes_serialize h]
    rw [show Multiaddr.toString ⟨tuplesToBuffer [(c1, v1), (c2, v2)]⟩
        = some (renderSegs [p1.name, vs1, p2.name, vs2]) from hbs]
    show (Except.ok ⟨(if ([(c1, v1), (c2, v2)].map Prod.fst).getD 0 0 = 41
        then "IPv6".toList else "IPv4".toList),
      ((splitChar '/' (renderSegs [p1.name, vs1, p2.name, vs2])).drop 1).getD 1 [],
      ((splitChar '/' (renderSegs [p1.name, vs1, p2.name, vs2])).drop 1).getD 3 []⟩
      : Except MError NodeAddr)
      = Except.ok ⟨(if c1 = 41 then "IPv6".toList else "IPv4".toList), vs1, vs2⟩
    rw [hsplit]
    rfl

/-- Witness for C6 at the thin-waist address `/ip4/127.0.0.1/tcp/4001`. -/
theorem claim_c6_thinwaist_witness :
    (∃ b, Multiaddr.isThinWaistAddress
        ⟨tuplesToBuffer [(4, [127, 0, 0, 1]), (6, [15, 161])]⟩ = some b ∧
      (b = true ↔ ThinWaistShape [(4, [127, 0, 0, 1]), (6, [15, 161])])) ∧
    ((∃ e, Multiaddr.nodeAddress
        ⟨tuplesToBuffer [(4, [127, 0, 0, 1]), (6, [15, 161])]⟩ = .error e) ↔
      ¬ ThinWaistShape [(4, [127, 0, 0, 1]), (6, [15, 161])]) ∧
    (∀ c1 v1 c2 v2, [(4, [127, 0, 0, 1]), (6, [15, 161])] = [(c1, v1), (c2, v2)] →
      (c1 = 4 ∨ c1 = 41) → (c2 = 6 ∨ c2 = 17) →
      ∃ s1 s2, addrToString c1 v1 = some s1 ∧ addrToString c2 v2 = some s2 ∧
        Multiaddr.nodeAddress ⟨tuplesToBuffer [(4, [127, 0, 0, 1]), (6, [15, 161])]⟩ =
          .ok ⟨(if c1 = 41 then "IPv6".toList else "IPv4".toList), s1, s2⟩) :=
  claim_c6_thinwaist (by decide)

/-! ### Object-store model of `protos()`'s defensive copying

`protos` (index.js lines 99-104) returns `extend(protocols(code))` for
each code: a fresh object copying the registry descriptor, so that callers
cannot mutate the registry. The JS reference semantics is modelled by an
explicit store: cells hold descriptor records, the registry descriptors
live in the initial cells, `extend` allocates a fresh cell with the same
contents, and a caller mutation writes through a returned reference. -/

/-- A store of descriptor objects plus the next fresh address. -/
structure Store where
  cells : Nat → Option Protocol
  next : Nat

/-- The initial store: the registry table occupies cells
`0 .. protocolTable.length - 1`. -/
def initStore : Store :=
  { cells := fun i => protocolTable.get? i, next := protocolTable.length }

/-- The reference returned by `protocols(code)`: the registry's own cell. -/
def registryRef (code : Nat) : Option Nat :=
  protocolTable.findIdx? (fun p => decide (p.code = code))

/-- Allocate a fresh cell holding a copy of a record (the `extend` call). -/
def allocCell (st : Store) (p : Protocol) : Nat × Store :=
  (st.next,
   { cells := fun i => if i = st.next then some p else st.cells i, next := st.next + 1 })

/-- Operation `protos()` in the store model: for each code, read the registry cell
and return a reference to a fresh copy. -/
def protosRefs : List Nat → Store → Option (List Nat × Store)
  | [], st => some ([], st)
  | c :: cs, st =>
    (registryRef c).bind (fun r =>
      (st.cells r).bind (fun p =>
        (protosRefs cs (allocCell st p).2).map
          (fun q => ((allocCell st p).1 :: q.1, q.2))))

/-- A caller mutation: overwrite the record behind a reference. -/
def writeCell (st : Store) (r : Nat) (p : Protocol) : Store :=
  { cells := fun i => if i = r then some p else st.cells i, next := st.next }

/-- The descriptor contents seen through the references `protos()`
returned. -/
def protosContents (codes : List Nat) (st : Store) : Option (List Protocol) :=
  (protosRefs codes st).map (fun q => q.1.map (fun r => (q.2.cells r).getD ⟨0, 0, []⟩))

theorem registryRef_lt {code r : Nat} (h : registryRef code = some r) :
    r < protocolTable.length := by
  rw [registryRef] at h
  exact List.findIdx?_eq_some_iff_findIdx_eq.mp h |>.1

theorem protosRefs_next {codes : List Nat} :
    ∀ {st : Store} {rs : List Nat} {st2 : Store}, protosRefs codes st = some (rs, st2) →
      st.next ≤ st2.next ∧ (∀ i, i < st.next → st2.cells i = st.cells i) ∧
      (∀ r ∈ rs, st.next ≤ r ∧ r < st2.next) := by
  induction codes with
  | nil =>
    intro st rs st2 hpr
    rw [protosRefs] at hpr
    have h := Option.some.inj hpr
    rw [Prod.mk.injEq] at h
    obtain ⟨h1, h2⟩ := h
    subst h1
    subst h2
    exact ⟨le_refl _, fun i _ => rfl, by simp⟩
  | cons c cs ih =>
    intro st rs st2 hpr
    rw [protosRefs] at hpr
    cases hrr : registryRef c with
    | none => rw [hrr] at hpr; exact absurd hpr (by simp)
    | some r =>
      rw [hrr, Option.some_bind] at hpr
      cases hcell : st.cells r with
      | none => rw [hcell] at hpr; exact absurd hpr (by simp)
      | some p =>
        rw [hcell, Option.some_bind] at hpr
        cases hrec : protosRefs cs (allocCell st p).2 with
        | none => rw [hrec] at hpr; exact absurd hpr (by simp)
        | some q =>
          obtain ⟨rs3, st3⟩ := q
          rw [hrec, Option.map_some'] at hpr
          have h := Option.some.inj hpr
          rw [Prod.mk.injEq] at h
          obtain ⟨h1, h2⟩ := h
          dsimp only at h1 h2
          subst h2
          subst h1
          obtain ⟨ih1, ih2, ih3⟩ := ih hrec
          have hnext : (allocCell st p).2.next = st.next + 1 := rfl
          rw [hnext] at ih1
          refine ⟨by omega, ?_, ?_⟩
          · intro i hi
            rw [ih2 i (by rw [hnext]; omega)]
            show (if i = st.next then some p else st.cells i) = st.cells i
            rw [if_neg (by omega)]
          · intro x hx
            rcases List.mem_cons.mp hx with rfl | hx2
            · have hfst : (allocCell st p).1 = st.next := rfl
              refine ⟨le_of_eq hfst.symm, ?_⟩
              rw [hfst]
              omega
            · obtain ⟨hh1, hh2⟩ := ih3 x hx2
              rw [hnext] at hh1
              exact ⟨by omega, hh2⟩

/-- In any store whose fresh region starts past the registry, the
contents seen through `protos()` are the registry cells' contents. -/
theorem protosContents_pure (codes : List Nat) :
    ∀ st : Store, protocolTable.length ≤ st.next →
      protosContents codes st =
        (protosRefs codes st).map (fun _ => codes.map (fun c =>
          ((registryRef c).bind st.cells).getD ⟨0, 0, []⟩)) := by
  induction codes with
  | nil =>
    intro st _
    rfl
  | cons c cs ih =>
    intro st hle
    rw [protosContents, protosRefs]
    cases hrr : registryRef c with
    | none => rfl
    | some r =>
      rw [Option.some_bind]
      cases hcell : st.cells r with
      | none => rfl
      | some p =>
        rw [Option.some_bind]
        cases hrec : protosRefs cs (allocCell st p).2 with
        | none => rfl
        | some q =>
          obtain ⟨rs3, st3⟩ := q
          rw [Option.map_some', Option.map_some', Option.map_some']
          have ihc := ih (allocCell st p).2 (by
            show protocolTable.length ≤ st.next + 1
            omega)
          rw [protosContents, hrec, Option.map_some', Option.map_some'] at ihc
          dsimp only at ihc
          have heq := Option.some.inj ihc
          obtain ⟨hn1, hn2, hn3⟩ := protosRefs_next hrec
          have hr2 : st3.cells (allocCell st p).1 = some p := by
            rw [hn2 (allocCell st p).1 (by show st.next < st.next + 1; omega)]
            show (if st.next = st.next then some p else st.cells st.next) = some p
            rw [if_pos rfl]
          show some (((allocCell st p).1 :: rs3).map
              (fun r2 => (st3.cells r2).getD ⟨0, 0, []⟩)) = _
          rw [List.map_cons, hr2]
          have hcells : ∀ c2 : Nat, ((registryRef c2).bind (allocCell st p).2.cells)
              = (registryRef c2).bind st.cells := by
            intro c2
            cases hr : registryRef c2 with
            | none => rfl
            | some rr =>
              have := registryRef_lt hr
              rw [Option.some_bind, Option.some_bind]
              show (if rr = st.next then some p else st.cells rr) = st.cells rr
              rw [if_neg (by omega)]
          have hmap : cs.map (fun c2 => (((registryRef c2).bind (allocCell st p).2.cells).getD
                  ⟨0, 0, []⟩))
              = cs.map (fun c2 => (((registryRef c2).bind st.cells).getD ⟨0, 0, []⟩)) := by
            apply List.map_congr_left
            intro x _
            rw [hcells x]
          rw [heq, hmap]
          have hfc : ((registryRef c).bind st.cells).getD ⟨0, 0, []⟩ = p := by
            rw [hrr, Option.some_bind, hcell]
            rfl
          rw [List.map_cons, hfc]
          rfl

theorem protosRefs_some_of_regeq (codes : List Nat) :
    ∀ st st' : Store, protocolTable.length ≤ st.next → protocolTable.length ≤ st'.next →
      (∀ c, (registryRef c).bind st.cells = (registryRef c).bind st'.cells) →
      (protosRefs codes st).isSome → (protosRefs codes st').isSome := by
  induction codes with
  | nil =>
    intro st st' _ _ _ _
    rw [protosRefs]
    rfl
  | cons c cs ih =>
    intro st st' hs hs' heq hsome
    rw [protosRefs] at hsome ⊢
    cases hc : registryRef c with
    | none =>
      rw [hc] at hsome
      simp at hsome
    | some r =>
      rw [hc, Option.some_bind] at hsome
      rw [Option.some_bind]
      cases hcell : st.cells r with
      | none =>
        rw [hcell] at hsome
        simp at hsome
      | some p =>
        rw [hcell, Option.some_bind] at hsome
        have hcell' : st'.cells r = some p := by
          have h := heq c
          rw [hc, Option.some_bind, Option.some_bind, hcell] at h
          exact h.symm
        rw [hcell', Option.some_bind]
        have hrlt := registryRef_lt hc
        have heq2 : ∀ c2, (registryRef c2).bind (allocCell st p).2.cells
            = (registryRef c2).bind (allocCell st' p).2.cells := by
          intro c2
          cases hc2 : registryRef c2 with
          | none => rfl
          | some rr =>
            have hlt2 := registryRef_lt hc2
            rw [Option.some_bind, Option.some_bind]
            show (if rr = st.next then some p else st.cells rr)
              = (if rr = st'.next then some p else st'.cells rr)
            rw [if_neg (by omega), if_neg (by omega)]
            have h := heq c2
            rw [hc2, Option.some_bind, Option.some_bind] at h
            exact h
        have hsome2 := ih (allocCell st p).2 (allocCell st' p).2
          (by show protocolTable.length ≤ st.next + 1; omega)
          (by show protocolTable.length ≤ st'.next + 1; omega)
          heq2 (by
            cases hq : protosRefs cs (allocCell st p).2 with
            | none =>
              rw [hq] at hsome
              simp at hsome
            | some q2 => rfl)
        cases hq' : protosRefs cs (allocCell st' p).2 with
        | none =>
          rw [hq'] at hsome2
          simp at hsome2
        | some q2 => rfl

/-- Claim C10: `protos()` hands out fresh copies: overwriting a record
behind any reference it returned leaves every registry cell unchanged, and
a subsequent `protos()` call still sees the original descriptor contents. -/
theorem claim_c10_protos_copy (codes : List Nat) {rs : List Nat} {st1 : Store}
    (hpr : protosRefs codes initStore = some (rs, st1)) {r : Nat} (hr : r ∈ rs)
    (p : Protocol) :
    (∀ c rr, registryRef c = some rr →
      (writeCell st1 r p).cells rr = initStore.cells rr) ∧
    protosContents codes (writeCell st1 r p) = protosContents codes initStore := by
  obtain ⟨hn1, hn2, hn3⟩ := protosRefs_next hpr
  have hinitnext : initStore.next = protocolTable.length := rfl
  obtain ⟨hrge, hrlt⟩ := hn3 r hr
  rw [hinitnext] at hrge hn1 hn2
  have hreg : ∀ c rr, registryRef c = some rr →
      (writeCell st1 r p).cells rr = initStore.cells rr := by
    intro c rr hc
    have hlt := registryRef_lt hc
    show (if rr = r then some p else st1.cells rr) = initStore.cells rr
    rw [if_neg (by omega), hn2 rr (by omega)]
  refine ⟨hreg, ?_⟩
  have hbindeq : ∀ c, (registryRef c).bind (writeCell st1 r p).cells
      = (registryRef c).bind initStore.cells := by
    intro c
    cases hc : registryRef c with
    | none => rfl
    | some rr =>
      rw [Option.some_bind, Option.some_bind]
      exact hreg c rr hc
  have hwnext : protocolTable.length ≤ (writeCell st1 r p).next := by
    show protocolTable.length ≤ st1.next
    omega
  rw [protosContents_pure codes (writeCell st1 r p) hwnext,
    protosContents_pure codes initStore (le_of_eq hinitnext.symm)]
  have hsome2 : (protosRefs codes (writeCell st1 r p)).isSome := by
    apply protosRefs_some_of_regeq codes initStore (writeCell st1 r p)
      (le_of_eq hinitnext.symm) hwnext (fun c => (hbindeq c).symm)
    rw [hpr]
    rfl
  cases hq : protosRefs codes (writeCell st1 r p) with
  | none =>
    rw [hq] at hsome2
    simp at hsome2
  | some q =>
    rw [hpr, Option.map_some', Option.map_some']
    congr 1
    apply List.map_congr_left
    intro c _
    rw [hbindeq c]

/-- Witness for C10: mutate the first copy returned for `[ip4, tcp]` and
observe the ip4 registry cell and a second `protos()` unchanged. -/
theorem claim_c10_protos_copy_witness :
    protosContents [4, 6]
        (writeCell (((protosRefs [4, 6] initStore).getD ([], initStore)).2) 12 ⟨999, 0, []⟩)
      = protosContents [4, 6] initStore ∧
    (writeCell (((protosRefs [4, 6] initStore).getD ([], initStore)).2) 12
        ⟨999, 0, []⟩).cells 0 = initStore.cells 0 := by
  have h := @claim_c10_protos_copy [4, 6] [12, 13]
    (((protosRefs [4, 6] initStore).getD ([], initStore)).2)
    rfl 12 (by decide) ⟨999, 0, []⟩
  exact ⟨h.2, h.1 4 0 rfl⟩

end Maddr
